import Mathlib

/- Verification of the morelib ELF rewriter (`morelib/tools/elfmodel.py` and
`morelib/tools/mkextmod.py`) against its specification.

Shallow-embedding conventions:
 - Python `bytes`/`bytearray` values, and the (ASCII) strings stored in string
   tables, are modelled as `List Nat` of byte values; Python's
   arbitrary-precision integers as `Nat` (or `Int` where a value can go
   negative); symbol names that are only compared and sliced as `String`.
 - A failing `assert` or an uncaught exception (`ValueError`, `IndexError`,
   `AttributeError`) is modelled as an `Option`/`Except` failure value.
 - Mutation of the object graph is modelled by explicit state passing. -/

namespace Morelib

/-- Python slice `l[a:b]` for nonnegative indices: both bounds are clamped to
the list length, and an empty list results when `b ≤ a` (as in Python). -/
def pySlice (l : List Nat) (a b : Nat) : List Nat :=
  (l.take b).drop a

/-- `int.from_bytes(bs, "little")`: little-endian interpretation of a byte
string (of any length, possibly shorter than the slice requested). -/
def fromLE : List Nat → Nat
  | [] => 0
  | b :: bs => b + 256 * fromLE bs

/-- `align(address, alignment)` from elfmodel.py: `assert alignment > 0`,
`assert (alignment & (alignment - 1)) == 0`, then round up with
`(address + alignment - 1) & ~(alignment - 1)`.  The asserts become `none`.
For a power-of-two alignment (which the asserts guarantee), clearing the low
bits of `m = address + alignment - 1` is exactly `m - m % alignment`. -/
def align (address alignment : Nat) : Option Nat :=
  if 0 < alignment ∧ alignment &&& (alignment - 1) = 0 then
    some (address + alignment - 1 - (address + alignment - 1) % alignment)
  else
    none

theorem align_spec {x a y : Nat} (h : align x a = some y) :
    a ∣ y ∧ x ≤ y ∧ y ≤ x + a - 1 := by
  unfold align at h
  split at h
  · rename_i hcond
    obtain ⟨hpos, _⟩ := hcond
    injection h with h
    subst h
    refine ⟨?_, ?_, ?_⟩
    · have hd := Nat.div_add_mod (x + a - 1) a
      refine ⟨(x + a - 1) / a, ?_⟩
      omega
    · have hm : (x + a - 1) % a < a := Nat.mod_lt _ hpos
      omega
    · omega
  · exact absurd h (by simp)

theorem align_pos_pow {x a : Nat} (h1 : 0 < a) (h2 : a &&& (a - 1) = 0) :
    align x a = some (x + a - 1 - (x + a - 1) % a) := by
  unfold align
  rw [if_pos ⟨h1, h2⟩]

/-! ## String table construction (`StrtabSection.build`, elfmodel.py 219-247)

Strings are byte lists.  `d` is the ordered list of groups
`(reversed key, members sorted by length)`; the CPython `bisect_left` /
`insort_right` binary searches are reproduced with an explicit iteration
bound (`fuel`), which at the call sites is the list length, an upper bound
on the number of `while lo < hi` iterations. -/

/-- Python `<` on strings (lexicographic). -/
def strLt : List Nat → List Nat → Bool
  | [], [] => false
  | [], _ :: _ => true
  | _ :: _, [] => false
  | a :: s, b :: t => if a < b then true else if b < a then false else strLt s t

abbrev Grp := List Nat × List (List Nat)

/-- CPython `bisect.bisect_left(d, x, key=lambda kv: kv[0])`. -/
def bisectLeftStr (d : List Grp) (x : List Nat) : Nat → Nat → Nat → Nat
  | 0, lo, _ => lo
  | fuel + 1, lo, hi =>
    if lo < hi then
      if strLt (d.getD ((lo + hi) / 2) ([], [])).1 x then
        bisectLeftStr d x fuel ((lo + hi) / 2 + 1) hi
      else bisectLeftStr d x fuel lo ((lo + hi) / 2)
    else lo

/-- CPython `bisect.bisect_right(v, n, key=len)` (as used by
`bisect.insort_right(value, s, key=len)`, where `n = len(s)`). -/
def bisectRightLen (v : List (List Nat)) (n : Nat) : Nat → Nat → Nat → Nat
  | 0, lo, _ => lo
  | fuel + 1, lo, hi =>
    if lo < hi then
      if n < (v.getD ((lo + hi) / 2) []).length then bisectRightLen v n fuel lo ((lo + hi) / 2)
      else bisectRightLen v n fuel ((lo + hi) / 2 + 1) hi
    else lo

/-- CPython `bisect.insort_right(v, s, key=len)`. -/
def insortRightLen (v : List (List Nat)) (s : List Nat) : List (List Nat) :=
  v.insertIdx (bisectRightLen v s.length v.length 0 v.length) s

/-- One iteration of the grouping loop of `StrtabSection.build`
(elfmodel.py 222-236) for the next registered string `s`. -/
def buildStep (d : List Grp) (s : List Nat) : List Grp :=
  let rs := s.reverse
  let i := bisectLeftStr d rs d.length 0 d.length
  if i < d.length ∧ rs <+: (d.getD i ([], [])).1 then
    d.set i ((d.getD i ([], [])).1, insortRightLen (d.getD i ([], [])).2 s)
  else if 0 < i ∧ (d.getD (i - 1) ([], [])).1 <+: rs then
    d.set (i - 1) (rs, insortRightLen (d.getD (i - 1) ([], [])).2 s)
  else
    d.insertIdx i (rs, [s])

/-- The grouping phase of `StrtabSection.build` over the registered strings
(the keys of the `strings` ordered dict, in insertion order). -/
def buildGroups (input : List (List Nat)) : List Grp :=
  input.foldl buildStep []

/-- The emission loop body of `StrtabSection.build` (elfmodel.py 241-245):
append the longest member (`value[-1]`), record each member's offset
`len(data) - len(s)`, then append the NUL terminator. -/
def emitGroup (acc : List Nat × List (List Nat × Nat)) (g : Grp) :
    List Nat × List (List Nat × Nat) :=
  let data := acc.1 ++ g.2.getLastD []
  let strs := acc.2 ++ g.2.map fun s => (s, data.length - s.length)
  (data ++ [0], strs)

/-- `StrtabSection.build`: the produced `data` buffer and the rebuilt
`strings` mapping (`data = bytearray(b"\0")`, `strings[""] = 0`, then the
emission loop).  The trailing self-check `assert key == self.lookup(value)`
is not modelled; the correctness theorem below subsumes it for NUL-free
byte strings. -/
def strtabBuild (input : List (List Nat)) : List Nat × List (List Nat × Nat) :=
  (buildGroups input).foldl emitGroup ([0], [([], 0)])

/-- First-match association lookup, the observable behaviour of the
`strings` dict (whose keys are distinct). -/
def strLookup (m : List (List Nat × Nat)) (s : List Nat) : Option Nat :=
  match m with
  | [] => none
  | (k, v) :: rest => if k = s then some v else strLookup rest s

example : strtabBuild [[97, 98], [98]] = ([0, 97, 98, 0], [([], 0), ([98], 2), ([97, 98], 1)]) := by
  decide

example : strtabBuild [[97]] = ([0, 97, 0], [([], 0), ([97], 1)]) := by decide

example : strtabBuild [[98], [97, 98]] = ([0, 97, 98, 0], [([], 0), ([98], 2), ([97, 98], 1)]) := by
  decide

/-! ### Generic list facts used by the string-table proof -/

theorem insertIdx_eq_take_cons_drop {α : Type} (a : α) :
    ∀ (n : Nat) (l : List α), n ≤ l.length →
      l.insertIdx n a = l.take n ++ a :: l.drop n
  | 0, l, _ => by simp
  | n + 1, [], h => by simp at h
  | n + 1, x :: l, h => by
    simp only [List.insertIdx_succ_cons, List.take_succ_cons, List.drop_succ_cons,
      List.cons_append]
    rw [insertIdx_eq_take_cons_drop a n l (by simpa using h)]

theorem insertIdx_perm {α : Type} (a : α) (n : Nat) (l : List α) (h : n ≤ l.length) :
    List.Perm (l.insertIdx n a) (a :: l) := by
  rw [insertIdx_eq_take_cons_drop a n l h]
  calc List.Perm (l.take n ++ a :: l.drop n) (a :: (l.take n ++ l.drop n)) := List.perm_middle
    _ = a :: l := by rw [List.take_append_drop]

theorem getLastD_cons_of_ne_nil {α : Type} {l : List α} (a d : α) (h : l ≠ []) :
    (a :: l).getLastD d = l.getLastD d := by
  cases l with
  | nil => exact absurd rfl h
  | cons b t => rfl

theorem getLastD_append_cons {α : Type} (l₁ l₂ : List α) (a d : α) :
    (l₁ ++ a :: l₂).getLastD d = (a :: l₂).getLastD d := by
  induction l₁ with
  | nil => rfl
  | cons x t ih =>
    rw [List.cons_append, getLastD_cons_of_ne_nil _ _ (by simp), ih]

theorem getLastD_mem {α : Type} {l : List α} (d : α) (h : l ≠ []) : l.getLastD d ∈ l := by
  induction l with
  | nil => exact absurd rfl h
  | cons a t ih =>
    cases ht : t with
    | nil => simp
    | cons b u =>
      rw [getLastD_cons_of_ne_nil _ _ (by simp [ht]), ← ht]
      exact List.mem_cons_of_mem _ (ih (by simp [ht]))

theorem getLastD_eq_getD_pred {α : Type} {l : List α} (d : α) (h : l ≠ []) :
    l.getLastD d = l.getD (l.length - 1) d := by
  induction l with
  | nil => exact absurd rfl h
  | cons a t ih =>
    cases ht : t with
    | nil => rfl
    | cons b u =>
      rw [getLastD_cons_of_ne_nil _ _ (by simp [ht]), ← ht, ih (by simp [ht])]
      have : t.length - 1 + 1 = (a :: t).length - 1 := by simp [ht]
      simp only [List.getD, ← this, List.get?_cons_succ]

theorem mem_take_getD {α : Type} {l : List α} {p : Nat} {m : α} (d : α)
    (h : m ∈ l.take p) : ∃ i, i < p ∧ i < l.length ∧ l.getD i d = m := by
  induction l generalizing p with
  | nil => simp at h
  | cons a t ih =>
    cases p with
    | zero => simp at h
    | succ p =>
      rw [List.take_succ_cons, List.mem_cons] at h
      rcases h with h | h
      · exact ⟨0, Nat.succ_pos _, Nat.succ_pos _, by simp [List.getD, h.symm]⟩
      · obtain ⟨i, h1, h2, h3⟩ := ih h
        exact ⟨i + 1, by omega, by simpa using Nat.succ_lt_succ h2, by simpa [List.getD] using h3⟩

theorem mem_drop_getD {α : Type} {l : List α} {p : Nat} {m : α} (d : α)
    (h : m ∈ l.drop p) : ∃ i, p ≤ i ∧ i < l.length ∧ l.getD i d = m := by
  induction l generalizing p with
  | nil => simp at h
  | cons a t ih =>
    cases p with
    | zero =>
      rw [List.drop_zero] at h
      obtain ⟨i, hval⟩ := List.mem_iff_get.1 h
      exact ⟨i, Nat.zero_le _, i.isLt, by rw [List.getD_eq_getElem _ d i.isLt]; exact hval⟩
    | succ p =>
      rw [List.drop_succ_cons] at h
      obtain ⟨i, h1, h2, h3⟩ := ih h
      exact ⟨i + 1, by omega, by simpa using Nat.succ_lt_succ h2, by simpa [List.getD] using h3⟩

theorem strLookup_append_some {m₁ m₂ : List (List Nat × Nat)} {s : List Nat} {v : Nat}
    (h : strLookup m₁ s = some v) : strLookup (m₁ ++ m₂) s = some v := by
  induction m₁ with
  | nil => simp [strLookup] at h
  | cons kv rest ih =>
    obtain ⟨k, w⟩ := kv
    simp only [strLookup, List.cons_append] at h ⊢
    split at h
    · exact h ▸ (by rename_i hk; simp [strLookup, hk])
    · rename_i hk
      simpa [strLookup, hk] using ih h

theorem strLookup_append_none {m₁ m₂ : List (List Nat × Nat)} {s : List Nat}
    (h : strLookup m₁ s = none) : strLookup (m₁ ++ m₂) s = strLookup m₂ s := by
  induction m₁ with
  | nil => rfl
  | cons kv rest ih =>
    obtain ⟨k, w⟩ := kv
    simp only [strLookup, List.cons_append] at h ⊢
    split at h
    · simp at h
    · rename_i hk
      simpa [strLookup, hk] using ih h

theorem strLookup_map_of_not_mem {v : List (List Nat)} {s : List Nat}
    (f : List Nat → Nat) (h : s ∉ v) :
    strLookup (v.map fun m => (m, f m)) s = none := by
  induction v with
  | nil => rfl
  | cons a t ih =>
    simp only [List.map_cons, strLookup]
    rw [if_neg (by rintro rfl; exact h (List.mem_cons_self _ _))]
    exact ih fun hs => h (List.mem_cons_of_mem _ hs)

theorem strLookup_map_of_mem {v : List (List Nat)} {s : List Nat}
    (f : List Nat → Nat) (h : s ∈ v) :
    strLookup (v.map fun m => (m, f m)) s = some (f s) := by
  induction v with
  | nil => simp at h
  | cons a t ih =>
    simp only [List.map_cons, strLookup]
    by_cases ha : a = s
    · subst ha; simp
    · rw [if_neg ha]
      rcases List.mem_cons.1 h with h | h
      · exact absurd h.symm ha
      · exact ih h

theorem suffix_eq_of_length_eq {a b c : List Nat} (ha : a <:+ c) (hb : b <:+ c)
    (hlen : a.length = b.length) : a = b := by
  obtain ⟨ta, hta⟩ := ha
  obtain ⟨tb, htb⟩ := hb
  have hlc : ta.length + a.length = tb.length + b.length := by
    rw [← List.length_append, ← List.length_append, hta, htb]
  have hts : ta.length = tb.length := by omega
  have : ta ++ a = tb ++ b := by rw [hta, htb]
  exact List.append_inj_right this hts

theorem getLastD_drop {α : Type} {v : List α} {p : Nat} (d : α) (h : p < v.length) :
    (v.drop p).getLastD d = v.getLastD d := by
  have hne : v.drop p ≠ [] := by
    intro hnil
    have := List.drop_eq_nil_iff.1 hnil
    omega
  obtain ⟨a, t, ht⟩ : ∃ a t, v.drop p = a :: t := by
    cases hd : v.drop p with
    | nil => exact absurd hd hne
    | cons a t => exact ⟨a, t, rfl⟩
  conv_rhs => rw [← List.take_append_drop p v]
  rw [ht, getLastD_append_cons]

theorem getD_mem_of_lt {α : Type} {l : List α} {i : Nat} (d : α) (h : i < l.length) :
    l.getD i d ∈ l := by
  rw [List.getD_eq_getElem _ d h]
  exact List.getElem_mem h

/-! ### Binary-search specifications -/

theorem bisectRightLen_le_hi (v : List (List Nat)) (n : Nat) :
    ∀ fuel lo hi, lo ≤ hi → bisectRightLen v n fuel lo hi ≤ hi := by
  intro fuel
  induction fuel with
  | zero => intro lo hi h; exact h
  | succ fuel ih =>
    intro lo hi h
    unfold bisectRightLen
    split
    · rename_i hlt
      split
      · exact le_trans (ih lo ((lo + hi) / 2) (by omega)) (by omega)
      · exact ih ((lo + hi) / 2 + 1) hi (by omega)
    · exact h

theorem bisectLeftStr_le_hi (d : List Grp) (x : List Nat) :
    ∀ fuel lo hi, lo ≤ hi → bisectLeftStr d x fuel lo hi ≤ hi := by
  intro fuel
  induction fuel with
  | zero => intro lo hi h; exact h
  | succ fuel ih =>
    intro lo hi h
    unfold bisectLeftStr
    split
    · rename_i hlt
      split
      · exact ih ((lo + hi) / 2 + 1) hi (by omega)
      · exact le_trans (ih lo ((lo + hi) / 2) (by omega)) (by omega)
    · exact h

theorem bisectRightLen_spec (v : List (List Nat)) (n : Nat)
    (hs : ∀ i j, i ≤ j → j < v.length → (v.getD i []).length ≤ (v.getD j []).length) :
    ∀ fuel lo hi, hi ≤ v.length → lo ≤ hi → hi - lo ≤ fuel →
      (∀ i, i < lo → (v.getD i []).length ≤ n) →
      (∀ i, hi ≤ i → i < v.length → n < (v.getD i []).length) →
      (∀ i, i < bisectRightLen v n fuel lo hi → (v.getD i []).length ≤ n) ∧
      (∀ i, bisectRightLen v n fuel lo hi ≤ i → i < v.length → n < (v.getD i []).length) := by
  intro fuel
  induction fuel with
  | zero =>
    intro lo hi hhi hlohi hfuel hbelow habove
    have heq : lo = hi := by omega
    have hred : bisectRightLen v n 0 lo hi = lo := rfl
    rw [hred]
    exact ⟨hbelow, fun i h1 h2 => habove i (by omega) h2⟩
  | succ fuel ih =>
    intro lo hi hhi hlohi hfuel hbelow habove
    unfold bisectRightLen
    split
    · rename_i hlt
      split
      · rename_i hmid
        refine ih lo ((lo + hi) / 2) (by omega) (by omega) (by omega) hbelow ?_
        intro i hi1 hi2
        exact lt_of_lt_of_le hmid (hs _ i hi1 hi2)
      · rename_i hmid
        push_neg at hmid
        refine ih ((lo + hi) / 2 + 1) hi (by omega) (by omega) (by omega) ?_ habove
        intro i hi1
        exact le_trans (hs i ((lo + hi) / 2) (by omega) (by omega)) hmid
    · rename_i hge
      exact ⟨hbelow, fun i h1 h2 => habove i (by omega) h2⟩

theorem pairwise_len_getD {v : List (List Nat)}
    (hp : v.Pairwise fun a b => a.length < b.length) :
    ∀ i j, i ≤ j → j < v.length → (v.getD i []).length ≤ (v.getD j []).length := by
  intro i j hij hj
  rcases Nat.eq_or_lt_of_le hij with rfl | hlt
  · exact le_refl _
  · have hi : i < v.length := lt_trans hlt hj
    have := (List.pairwise_iff_get.1 hp) ⟨i, hi⟩ ⟨j, hj⟩ hlt
    rw [List.getD_eq_getElem _ _ hi, List.getD_eq_getElem _ _ hj]
    exact le_of_lt this

/-- The full `bisect_right`-by-length spec at the `insort_right` call site. -/
theorem insortPos_spec {v : List (List Nat)} {n : Nat}
    (hp : v.Pairwise fun a b => a.length < b.length) :
    (∀ i, i < bisectRightLen v n v.length 0 v.length → (v.getD i []).length ≤ n) ∧
    (∀ i, bisectRightLen v n v.length 0 v.length ≤ i → i < v.length →
      n < (v.getD i []).length) :=
  bisectRightLen_spec v n (pairwise_len_getD hp) v.length 0 v.length (le_refl _)
    (Nat.zero_le _) (by omega) (fun i h => absurd h (Nat.not_lt_zero i))
    (fun i h1 h2 => absurd h2 (by omega))

/-! ### `insort_right` facts -/

theorem insortRightLen_perm (v : List (List Nat)) (s : List Nat) :
    List.Perm (insortRightLen v s) (s :: v) :=
  insertIdx_perm s _ v (bisectRightLen_le_hi v s.length v.length 0 v.length (Nat.zero_le _))

theorem insortRightLen_ne_nil (v : List (List Nat)) (s : List Nat) :
    insortRightLen v s ≠ [] := by
  intro h
  have := (insortRightLen_perm v s).length_eq
  rw [h] at this
  simp at this

theorem insortRightLen_getLastD_of_lt {v : List (List Nat)} {s : List Nat}
    (hp : v.Pairwise fun a b => a.length < b.length) (hne : v ≠ [])
    (hlt : s.length < (v.getLastD []).length) :
    (insortRightLen v s).getLastD [] = v.getLastD [] := by
  have hvp : 0 < v.length := List.length_pos.2 hne
  obtain ⟨hbelow, _⟩ := insortPos_spec (n := s.length) hp
  set p := bisectRightLen v s.length v.length 0 v.length with hpdef
  have hple : p ≤ v.length := bisectRightLen_le_hi v s.length v.length 0 v.length (Nat.zero_le _)
  have hplt : p < v.length := by
    rcases Nat.lt_or_ge p v.length with h | h
    · exact h
    · exfalso
      have hlast := hbelow (v.length - 1) (by omega)
      rw [← getLastD_eq_getD_pred [] hne] at hlast
      omega
  unfold insortRightLen
  rw [insertIdx_eq_take_cons_drop s p v hple, getLastD_append_cons,
    getLastD_cons_of_ne_nil _ _ (by intro h; have := List.drop_eq_nil_iff.1 h; omega),
    getLastD_drop [] hplt]

theorem insortRightLen_getLastD_of_gt {v : List (List Nat)} {s : List Nat}
    (hp : v.Pairwise fun a b => a.length < b.length)
    (hall : ∀ m ∈ v, m.length < s.length) :
    (insortRightLen v s).getLastD [] = s := by
  obtain ⟨_, habove⟩ := insortPos_spec (n := s.length) hp
  set p := bisectRightLen v s.length v.length 0 v.length with hpdef
  have hple : p ≤ v.length := bisectRightLen_le_hi v s.length v.length 0 v.length (Nat.zero_le _)
  have hpeq : p = v.length := by
    rcases Nat.eq_or_lt_of_le hple with h | h
    · exact h
    · exfalso
      have h1 := habove p (le_refl _) h
      have h2 := hall _ (getD_mem_of_lt [] h)
      omega
  unfold insortRightLen
  rw [← hpdef, hpeq, List.insertIdx_length_self, getLastD_append_cons]
  rfl

theorem insortRightLen_pairwise {v : List (List Nat)} {s : List Nat}
    (hp : v.Pairwise fun a b => a.length < b.length)
    (hdiff : ∀ m ∈ v, m.length ≠ s.length) :
    (insortRightLen v s).Pairwise fun a b => a.length < b.length := by
  obtain ⟨hbelow, habove⟩ := insortPos_spec (n := s.length) hp
  set p := bisectRightLen v s.length v.length 0 v.length with hpdef
  have hple : p ≤ v.length := bisectRightLen_le_hi v s.length v.length 0 v.length (Nat.zero_le _)
  unfold insortRightLen
  rw [insertIdx_eq_take_cons_drop s p v hple]
  rw [List.pairwise_append]
  refine ⟨hp.sublist (List.take_sublist _ _), ?_, ?_⟩
  · rw [List.pairwise_cons]
    refine ⟨?_, hp.sublist (List.drop_sublist _ _)⟩
    intro b hb
    obtain ⟨i, hi1, hi2, hi3⟩ := mem_drop_getD [] hb
    rw [← hi3]
    exact habove i hi1 hi2
  · intro a ha b hb
    obtain ⟨i, hi1, hi2, hi3⟩ := mem_take_getD [] ha
    have halen : a.length ≤ s.length := by rw [← hi3]; exact hbelow i hi1
    have haltn : a.length < s.length :=
      lt_of_le_of_ne halen (hdiff a (List.mem_of_mem_take ha))
    rcases List.mem_cons.1 hb with rfl | hb
    · exact haltn
    · obtain ⟨j, hj1, hj2, hj3⟩ := mem_drop_getD [] hb
      have : s.length < b.length := by rw [← hj3]; exact habove j hj1 hj2
      omega

/-! ### The grouping invariant -/

/-- Invariant of one group `(key, value)` of the dictionary `d` maintained by
`StrtabSection.build`: the member list is nonempty and sorted by strictly
increasing length, every member is a suffix of the last (longest) member, and
the key is the reversal of that longest member. -/
def GrpOK (g : Grp) : Prop :=
  g.2 ≠ [] ∧
  g.1 = (g.2.getLastD []).reverse ∧
  (∀ m ∈ g.2, m <:+ g.2.getLastD []) ∧
  g.2.Pairwise fun a b => a.length < b.length

/-- All group members of the dictionary, in order. -/
def memsOf (d : List Grp) : List (List Nat) :=
  (d.map Prod.snd).flatten

theorem memsOf_nil : memsOf [] = [] := rfl

theorem memsOf_cons (g : Grp) (t : List Grp) : memsOf (g :: t) = g.2 ++ memsOf t := rfl

theorem memsOf_append (l₁ l₂ : List Grp) : memsOf (l₁ ++ l₂) = memsOf l₁ ++ memsOf l₂ := by
  simp [memsOf]

theorem mem_memsOf {d : List Grp} {g : Grp} {m : List Nat} (hg : g ∈ d) (hm : m ∈ g.2) :
    m ∈ memsOf d := by
  simp only [memsOf, List.mem_flatten, List.mem_map]
  exact ⟨g.2, ⟨g, hg, rfl⟩, hm⟩

theorem memsOf_set_perm (s : List Nat) :
    ∀ (d : List Grp) (i : Nat) (k' : List Nat) (v' : List (List Nat)), i < d.length →
      List.Perm v' (s :: (d.getD i ([], [])).2) →
      List.Perm (memsOf (d.set i (k', v'))) (s :: memsOf d)
  | [], i, _, _, hi, _ => by simp at hi
  | g :: t, 0, k', v', hi, hperm => by
    simp only [List.set_cons_zero, memsOf_cons]
    simp only [List.getD_cons_zero] at hperm
    calc List.Perm (v' ++ memsOf t) ((s :: g.2) ++ memsOf t) := hperm.append_right _
      _ = s :: (g.2 ++ memsOf t) := by simp
  | g :: t, i + 1, k', v', hi, hperm => by
    simp only [List.set_cons_succ, memsOf_cons]
    simp only [List.getD_cons_succ] at hperm
    have ih := memsOf_set_perm s t i k' v' (by simpa using hi) hperm
    exact (ih.append_left g.2).trans List.perm_middle

theorem memsOf_insertIdx_perm (d : List Grp) (i : Nat) (g : Grp) (hi : i ≤ d.length) :
    List.Perm (memsOf (d.insertIdx i g)) (g.2 ++ memsOf d) := by
  rw [insertIdx_eq_take_cons_drop g i d hi, memsOf_append, memsOf_cons]
  have h1 : List.Perm (memsOf (d.take i) ++ (g.2 ++ memsOf (d.drop i)))
      (g.2 ++ (memsOf (d.take i) ++ memsOf (d.drop i))) := by
    rw [← List.append_assoc, ← List.append_assoc]
    exact (List.perm_append_comm).append_right _
  rw [← memsOf_append, List.take_append_drop] at h1
  exact h1

theorem buildStep_perm (d : List Grp) (s : List Nat) :
    List.Perm (memsOf (buildStep d s)) (s :: memsOf d) := by
  have hile : bisectLeftStr d s.reverse d.length 0 d.length ≤ d.length :=
    bisectLeftStr_le_hi d s.reverse d.length 0 d.length (Nat.zero_le _)
  simp only [buildStep]
  split
  · rename_i hA
    exact memsOf_set_perm s d _ _ _ hA.1 (insortRightLen_perm _ _)
  · split
    · rename_i hB
      exact memsOf_set_perm s d _ _ _ (by omega) (insortRightLen_perm _ _)
    · exact (memsOf_insertIdx_perm d _ (s.reverse, [s]) hile).trans (by simp)

theorem grpOK_updated_of_suffix {g : Grp} {s : List Nat} (hok : GrpOK g)
    (hsuf : s <:+ g.2.getLastD []) (hnotin : s ∉ g.2) :
    GrpOK (g.1, insortRightLen g.2 s) := by
  obtain ⟨hne, hkey, hsufs, hpw⟩ := hok
  have hslt : s.length < (g.2.getLastD []).length := by
    have hle := hsuf.length_le
    rcases Nat.eq_or_lt_of_le hle with heq | hlt
    · exfalso
      have : s = g.2.getLastD [] :=
        suffix_eq_of_length_eq hsuf (List.suffix_refl _) heq
      exact hnotin (this ▸ getLastD_mem [] hne)
    · exact hlt
  have hdiff : ∀ m ∈ g.2, m.length ≠ s.length := by
    intro m hm hlen
    exact hnotin (suffix_eq_of_length_eq hsuf (hsufs m hm) hlen.symm ▸ hm)
  have hlast : (insortRightLen g.2 s).getLastD [] = g.2.getLastD [] :=
    insortRightLen_getLastD_of_lt hpw hne hslt
  refine ⟨insortRightLen_ne_nil _ _, ?_, ?_, ?_⟩
  · show g.1 = ((insortRightLen g.2 s).getLastD []).reverse
    rw [hlast]
    exact hkey
  · show ∀ m ∈ insortRightLen g.2 s, m <:+ (insortRightLen g.2 s).getLastD []
    intro m hm
    rw [hlast]
    rcases List.mem_cons.1 ((insortRightLen_perm g.2 s).mem_iff.1 hm) with rfl | hm
    · exact hsuf
    · exact hsufs m hm
  · exact insortRightLen_pairwise hpw hdiff

theorem grpOK_extended_of_suffix {g : Grp} {s : List Nat} (hok : GrpOK g)
    (hsuf : g.2.getLastD [] <:+ s) (hnotin : s ∉ g.2) :
    GrpOK (s.reverse, insortRightLen g.2 s) := by
  obtain ⟨hne, hkey, hsufs, hpw⟩ := hok
  have hslt : (g.2.getLastD []).length < s.length := by
    have hle := hsuf.length_le
    rcases Nat.eq_or_lt_of_le hle with heq | hlt
    · exfalso
      have : g.2.getLastD [] = s :=
        suffix_eq_of_length_eq hsuf (List.suffix_refl _) heq
      exact hnotin (this ▸ getLastD_mem [] hne)
    · exact hlt
  have hall : ∀ m ∈ g.2, m.length < s.length := by
    intro m hm
    exact lt_of_le_of_lt (hsufs m hm).length_le hslt
  have hlast : (insortRightLen g.2 s).getLastD [] = s :=
    insortRightLen_getLastD_of_gt hpw hall
  refine ⟨insortRightLen_ne_nil _ _, ?_, ?_, ?_⟩
  · show s.reverse = ((insortRightLen g.2 s).getLastD []).reverse
    rw [hlast]
  · show ∀ m ∈ insortRightLen g.2 s, m <:+ (insortRightLen g.2 s).getLastD []
    intro m hm
    rw [hlast]
    rcases List.mem_cons.1 ((insortRightLen_perm g.2 s).mem_iff.1 hm) with rfl | hm
    · exact List.suffix_refl _
    · exact (hsufs m hm).trans hsuf
  · exact insortRightLen_pairwise hpw fun m hm => Nat.ne_of_lt (hall m hm)

theorem buildStep_grpOK {d : List Grp} {s : List Nat} (hok : ∀ g ∈ d, GrpOK g)
    (hnotin : s ∉ memsOf d) : ∀ g' ∈ buildStep d s, GrpOK g' := by
  intro g' hg'
  have hile : bisectLeftStr d s.reverse d.length 0 d.length ≤ d.length :=
    bisectLeftStr_le_hi d s.reverse d.length 0 d.length (Nat.zero_le _)
  simp only [buildStep] at hg'
  split at hg'
  · rename_i hA
    rcases List.mem_or_eq_of_mem_set hg' with hg' | rfl
    · exact hok g' hg'
    · have hgmem : d.getD (bisectLeftStr d s.reverse d.length 0 d.length) ([], []) ∈ d :=
        getD_mem_of_lt _ hA.1
      have hgok := hok _ hgmem
      have hsuf : s <:+ (d.getD (bisectLeftStr d s.reverse d.length 0 d.length) ([], [])).2.getLastD [] := by
        rw [← List.reverse_prefix]
        exact hgok.2.1 ▸ hA.2
      exact grpOK_updated_of_suffix hgok hsuf fun hm => hnotin (mem_memsOf hgmem hm)
  · split at hg'
    · rename_i hB
      rcases List.mem_or_eq_of_mem_set hg' with hg' | rfl
      · exact hok g' hg'
      · have hgmem : d.getD (bisectLeftStr d s.reverse d.length 0 d.length - 1) ([], []) ∈ d :=
          getD_mem_of_lt _ (by omega)
        have hgok := hok _ hgmem
        have hsuf : (d.getD (bisectLeftStr d s.reverse d.length 0 d.length - 1) ([], [])).2.getLastD [] <:+ s := by
          rw [← List.reverse_prefix]
          exact hgok.2.1 ▸ hB.2
        exact grpOK_extended_of_suffix hgok hsuf fun hm => hnotin (mem_memsOf hgmem hm)
    · rw [insertIdx_eq_take_cons_drop _ _ _ hile] at hg'
      rcases List.mem_append.1 hg' with hg' | hg'
      · exact hok g' (List.mem_of_mem_take hg')
      · rcases List.mem_cons.1 hg' with rfl | hg'
        · exact ⟨by simp, by simp, by simp, List.pairwise_singleton _ _⟩
        · exact hok g' (List.mem_of_mem_drop hg')

theorem buildGroups_go : ∀ (rest : List (List Nat)) (d : List Grp) (P : List (List Nat)),
    (∀ g ∈ d, GrpOK g) → List.Perm (memsOf d) P → (P ++ rest).Nodup →
    (∀ g ∈ rest.foldl buildStep d, GrpOK g) ∧
      List.Perm (memsOf (rest.foldl buildStep d)) (P ++ rest)
  | [], d, P, hok, hperm, hnd => by
    rw [List.foldl_nil]
    exact ⟨hok, by simpa using hperm⟩
  | s :: rest, d, P, hok, hperm, hnd => by
    have hsP : s ∉ P := by
      rw [List.nodup_append] at hnd
      exact fun h => hnd.2.2 h (List.mem_cons_self _ _)
    have hnotin : s ∉ memsOf d := fun h => hsP (hperm.mem_iff.1 h)
    have hok' := buildStep_grpOK hok hnotin
    have hperm' : List.Perm (memsOf (buildStep d s)) (P ++ [s]) :=
      (buildStep_perm d s).trans ((hperm.cons s).trans (List.perm_append_singleton s P).symm)
    have hnd' : ((P ++ [s]) ++ rest).Nodup := by
      rw [List.append_assoc]
      simpa using hnd
    have := buildGroups_go rest (buildStep d s) (P ++ [s]) hok' hperm' hnd'
    rw [List.append_assoc] at this
    simpa using this

theorem buildGroups_inv (input : List (List Nat)) (hnd : input.Nodup) :
    (∀ g ∈ buildGroups input, GrpOK g) ∧
      List.Perm (memsOf (buildGroups input)) input := by
  have := buildGroups_go input [] [] (by simp) (by simp [memsOf_nil]) (by simpa using hnd)
  simpa [buildGroups] using this

/-! ### The emission phase -/

theorem emitGroup_eq (acc : List Nat × List (List Nat × Nat)) (g : Grp) :
    emitGroup acc g =
      ((acc.1 ++ g.2.getLastD []) ++ [0],
        acc.2 ++ g.2.map fun s => (s, (acc.1 ++ g.2.getLastD []).length - s.length)) := rfl

/-- The per-string postcondition of `StrtabSection.build`: the string is bound
in the table at an offset where its bytes sit in the buffer, followed by a
NUL.  (The `getD` default `1` forces the terminator position in range.) -/
def Good (data : List Nat) (strs : List (List Nat × Nat)) (s : List Nat) : Prop :=
  ∃ off, strLookup strs s = some off ∧
    pySlice data off (off + s.length) = s ∧
    data.getD (off + s.length) 1 = 0

theorem Good_mono {data : List Nat} {strs : List (List Nat × Nat)} {s : List Nat}
    (dlt : List Nat) (sig : List (List Nat × Nat)) (h : Good data strs s) :
    Good (data ++ dlt) (strs ++ sig) s := by
  obtain ⟨off, h1, h2, h3⟩ := h
  have hin : off + s.length < data.length := by
    by_contra hge
    rw [List.getD_eq_default _ _ (by omega)] at h3
    exact one_ne_zero h3
  refine ⟨off, strLookup_append_some h1, ?_, ?_⟩
  · unfold pySlice at h2 ⊢
    rw [List.take_append_of_le_length (by omega)]
    exact h2
  · have hq : (data ++ dlt).get? (off + s.length) = data.get? (off + s.length) :=
      List.get?_append hin
    show ((data ++ dlt).get? (off + s.length)).getD 1 = 0
    rw [hq]
    exact h3

theorem emitGroup_good_member {acc : List Nat × List (List Nat × Nat)} {g : Grp}
    {s : List Nat} (hok : GrpOK g) (hs : s ∈ g.2)
    (hnone : strLookup acc.2 s = none) :
    Good (emitGroup acc g).1 (emitGroup acc g).2 s := by
  obtain ⟨pre, hpre⟩ := hok.2.2.1 s hs
  have hlen : pre.length + s.length = (g.2.getLastD []).length := by
    rw [← hpre, List.length_append]
  refine ⟨(acc.1 ++ g.2.getLastD []).length - s.length, ?_, ?_, ?_⟩
  · rw [emitGroup_eq, strLookup_append_none hnone]
    exact strLookup_map_of_mem _ hs
  · rw [emitGroup_eq]
    have hoff : (acc.1 ++ g.2.getLastD []).length - s.length = (acc.1 ++ pre).length := by
      simp only [List.length_append]
      omega
    rw [hoff]
    have hdata : (acc.1 ++ g.2.getLastD []) ++ [0] = (acc.1 ++ pre) ++ (s ++ [0]) := by
      rw [← hpre]
      simp [List.append_assoc]
    rw [hdata]
    unfold pySlice
    rw [List.take_append_eq_append_take, List.take_all_of_le (by omega),
      Nat.add_sub_cancel_left, List.take_append_of_le_length (le_refl _),
      List.take_length, List.drop_left]
  · rw [emitGroup_eq]
    have hoff : (acc.1 ++ g.2.getLastD []).length - s.length + s.length =
        (acc.1 ++ g.2.getLastD []).length := by
      simp only [List.length_append]
      omega
    rw [hoff]
    show (((acc.1 ++ g.2.getLastD []) ++ [0]).get? (acc.1 ++ g.2.getLastD []).length).getD 1 = 0
    rw [List.get?_append_right (le_refl _), Nat.sub_self]
    rfl

theorem emit_fold_shape : ∀ (gs : List Grp) (acc : List Nat × List (List Nat × Nat)),
    ∃ dlt sig, (gs.foldl emitGroup acc).1 = acc.1 ++ dlt ∧
      (gs.foldl emitGroup acc).2 = acc.2 ++ sig
  | [], acc => ⟨[], [], by simp, by simp⟩
  | g :: rest, acc => by
    obtain ⟨dlt, sig, h1, h2⟩ := emit_fold_shape rest (emitGroup acc g)
    rw [List.foldl_cons]
    refine ⟨g.2.getLastD [] ++ [0] ++ dlt, (g.2.map fun s =>
      (s, (acc.1 ++ g.2.getLastD []).length - s.length)) ++ sig, ?_, ?_⟩
    · rw [h1, emitGroup_eq]
      simp [List.append_assoc]
    · rw [h2, emitGroup_eq]
      simp [List.append_assoc]

theorem emit_fold_good : ∀ (gs : List Grp) (acc : List Nat × List (List Nat × Nat)),
    (∀ g ∈ gs, GrpOK g) → (memsOf gs).Nodup →
    (∀ s ∈ memsOf gs, strLookup acc.2 s = none) →
    (∀ s₀, Good acc.1 acc.2 s₀ →
      Good (gs.foldl emitGroup acc).1 (gs.foldl emitGroup acc).2 s₀) ∧
    (∀ s ∈ memsOf gs, Good (gs.foldl emitGroup acc).1 (gs.foldl emitGroup acc).2 s)
  | [], acc, _, _, _ => ⟨fun _ h => h, by simp [memsOf_nil]⟩
  | g :: rest, acc, hok, hnd, hnone => by
    rw [memsOf_cons] at hnd hnone
    have hnd' := List.nodup_append.1 hnd
    have hnone' : ∀ s ∈ memsOf rest, strLookup (emitGroup acc g).2 s = none := by
      intro s hs
      rw [emitGroup_eq, strLookup_append_none (hnone s (List.mem_append_right _ hs))]
      exact strLookup_map_of_not_mem _ fun hmem => hnd'.2.2 hmem hs
    have ih := emit_fold_good rest (emitGroup acc g) (fun g' hg' => hok g' (by simp [hg']))
      hnd'.2.1 hnone'
    have hstep : ∀ s₀, Good acc.1 acc.2 s₀ →
        Good (emitGroup acc g).1 (emitGroup acc g).2 s₀ := by
      intro s₀ h
      rw [emitGroup_eq]
      have := Good_mono (g.2.getLastD [] ++ [0])
        (g.2.map fun s => (s, (acc.1 ++ g.2.getLastD []).length - s.length)) h
      simpa [List.append_assoc] using this
    rw [List.foldl_cons]
    refine ⟨fun s₀ h => ih.1 s₀ (hstep s₀ h), ?_⟩
    intro s hs
    rcases List.mem_append.1 hs with hs | hs
    · exact ih.1 s (emitGroup_good_member (hok g (List.mem_cons_self _ _)) hs
        (hnone s (List.mem_append_left _ hs)))
    · exact ih.2 s hs

theorem emit_fold_length : ∀ (gs : List Grp) (acc : List Nat × List (List Nat × Nat)),
    (gs.foldl emitGroup acc).1.length =
      acc.1.length + (gs.map fun g => (g.2.getLastD []).length + 1).sum
  | [], acc => by simp
  | g :: rest, acc => by
    rw [List.foldl_cons, emit_fold_length rest (emitGroup acc g), emitGroup_eq]
    simp only [List.map_cons, List.sum_cons, List.length_append, List.length_cons,
      List.length_nil]
    omega

/-- C2: for every set of distinct non-empty strings registered into a
`StrtabSection`, after `build()` the data buffer starts with a 0 byte, every
registered string `s` is mapped by `strings` to an offset where the bytes of
`s` sit in the buffer immediately followed by a NUL terminator, and the
empty string maps to offset 0. -/
theorem strtabBuild_correct (input : List (List Nat)) (hnd : input.Nodup)
    (hne : ∀ s ∈ input, s ≠ []) :
    (strtabBuild input).1.head? = some 0 ∧
    strLookup (strtabBuild input).2 [] = some 0 ∧
    ∀ s ∈ input, ∃ off, strLookup (strtabBuild input).2 s = some off ∧
      pySlice (strtabBuild input).1 off (off + s.length) = s ∧
      (strtabBuild input).1.getD (off + s.length) 1 = 0 := by
  obtain ⟨hok, hperm⟩ := buildGroups_inv input hnd
  have hmnd : (memsOf (buildGroups input)).Nodup := hperm.symm.nodup hnd
  have hbase : ∀ s ∈ memsOf (buildGroups input),
      strLookup ([([], 0)] : List (List Nat × Nat)) s = none := by
    intro s hs
    have hsne : s ≠ [] := hne s (hperm.mem_iff.1 hs)
    simp only [strLookup]
    rw [if_neg fun h => hsne h.symm]
  obtain ⟨hmono, hgood⟩ := emit_fold_good (buildGroups input) ([0], [([], 0)]) hok hmnd hbase
  obtain ⟨dlt, sig, hd, hstr⟩ := emit_fold_shape (buildGroups input) ([0], [([], 0)])
  refine ⟨?_, ?_, ?_⟩
  · show (List.foldl emitGroup ([0], [([], 0)]) (buildGroups input)).1.head? = some 0
    rw [hd]
    rfl
  · show strLookup (List.foldl emitGroup ([0], [([], 0)]) (buildGroups input)).2 [] = some 0
    rw [hstr]
    rfl
  · intro s hs
    exact hgood s (hperm.mem_iff.2 hs)

/-- C2 witness: the theorem applied to the concrete registered set
{"ab", "b"} (bytes 97, 98), which shares the suffix "b". -/
theorem strtabBuild_correct_witness :
    ([[97, 98], [98]] : List (List Nat)).Nodup ∧
    (∀ s ∈ ([[97, 98], [98]] : List (List Nat)), s ≠ []) ∧
    ((strtabBuild [[97, 98], [98]]).1.head? = some 0 ∧
      strLookup (strtabBuild [[97, 98], [98]]).2 [] = some 0 ∧
      ∀ s ∈ ([[97, 98], [98]] : List (List Nat)), ∃ off,
        strLookup (strtabBuild [[97, 98], [98]]).2 s = some off ∧
        pySlice (strtabBuild [[97, 98], [98]]).1 off (off + s.length) = s ∧
        (strtabBuild [[97, 98], [98]]).1.getD (off + s.length) 1 = 0) :=
  ⟨by decide, by decide, strtabBuild_correct [[97, 98], [98]] (by decide) (by decide)⟩

/-- C3 counterexample: for the single registered one-byte string "a"
(byte 97), distinct and non-empty, the built buffer is `\0 a \0` of length 3,
exceeding 1 plus the sum of the registered string lengths (1 + 1 = 2).  The
claimed bound ignores the per-string NUL terminators. -/
theorem strtabBuild_size_claim_false :
    ([[97]] : List (List Nat)).Nodup ∧
    (∀ s ∈ ([[97]] : List (List Nat)), s ≠ []) ∧
    ¬((strtabBuild [[97]]).1.length ≤
      1 + (([[97]] : List (List Nat)).map List.length).sum) := by
  decide

/-- C3 amended: for every set of distinct non-empty strings registered into a
`StrtabSection`, the byte length of the buffer produced by `build()` is at
most 1 plus the sum over the registered strings of (length + 1), i.e. the
size of the naive table with one NUL terminator per string — sharing never
worsens size. -/
theorem strtabBuild_size_bound (input : List (List Nat)) (hnd : input.Nodup)
    (hne : ∀ s ∈ input, s ≠ []) :
    (strtabBuild input).1.length ≤ 1 + (input.map fun s => s.length + 1).sum := by
  obtain ⟨hok, hperm⟩ := buildGroups_inv input hnd
  show (List.foldl emitGroup ([0], [([], 0)]) (buildGroups input)).1.length ≤ _
  rw [emit_fold_length]
  have h2 : ((buildGroups input).map fun g => (g.2.getLastD []).length + 1).sum ≤
      ((buildGroups input).map fun g => (g.2.map fun m => m.length + 1).sum).sum := by
    apply List.sum_le_sum
    intro g hg
    have hlast := getLastD_mem [] (hok g hg).1
    exact List.le_sum_of_mem (List.mem_map.2 ⟨_, hlast, rfl⟩)
  have h3 : ((buildGroups input).map fun g => (g.2.map fun m => m.length + 1).sum).sum =
      (input.map fun s => s.length + 1).sum := by
    have hp : ((memsOf (buildGroups input)).map fun s => s.length + 1).sum =
        (input.map fun s => s.length + 1).sum := (hperm.map _).sum_eq
    rw [← hp, memsOf, List.map_flatten, List.sum_flatten, List.map_map, List.map_map]
    rfl
  simp only [List.length_cons, List.length_nil]
  omega

/-- C3 amended witness: the bound at the concrete registered set {"a"}. -/
theorem strtabBuild_size_bound_witness :
    ([[97]] : List (List Nat)).Nodup ∧
    (∀ s ∈ ([[97]] : List (List Nat)), s ≠ []) ∧
    (strtabBuild [[97]]).1.length ≤ 1 + (([[97]] : List (List Nat)).map fun s => s.length + 1).sum :=
  ⟨by decide, by decide, strtabBuild_size_bound [[97]] (by decide) (by decide)⟩

/-! ## ARM attributes parsing (`ReadData.visit_ArmAttributesSection`,
elfmodel.py 727-755) -/

/-- `bytes.index(b)`: index of the first occurrence of byte `b`; `none`
models the `ValueError` Python raises when the byte is absent. -/
def pyIndex : List Nat → Nat → Option Nat
  | [], _ => none
  | x :: xs, b => if x = b then some 0 else (pyIndex xs b).map (· + 1)

theorem pyIndex_append_terminator {name : List Nat} (hz : 0 ∉ name) :
    pyIndex (name ++ [0]) 0 = some name.length := by
  induction name with
  | nil => rfl
  | cons a t ih =>
    have ha : a ≠ 0 := fun h => hz (h ▸ List.mem_cons_self a t)
    have ih' := ih fun h => hz (List.mem_cons_of_mem a h)
    show (if a = 0 then some 0 else (pyIndex (t ++ [0]) 0).map (· + 1)) = some (t.length + 1)
    rw [if_neg ha, ih']
    rfl

theorem dropLast_append_getLastD {α : Type} {l : List α} (d : α) (h : l ≠ []) :
    l.dropLast ++ [l.getLastD d] = l := by
  induction l with
  | nil => exact absurd rfl h
  | cons a t ih =>
    cases ht : t with
    | nil => rfl
    | cons b u =>
      rw [getLastD_cons_of_ne_nil _ _ (by simp [ht]), ← ht,
        show (a :: t).dropLast = a :: t.dropLast by rw [ht]; rfl,
        List.cons_append, ih (by simp [ht])]

/-- `ReadData.visit_ArmAttributesSection` on the raw section bytes.
`none` models an uncaught exception propagating out of the visitor
(`ValueError` from `bytes.index` when no NUL byte is present, `IndexError`
from `data[0]` on an empty slice); `some none` models a normal return that
leaves `tags` empty; `some (some name)` models a normal return that sets
`tags["CPU_name"]` (the name is kept as its bytes; `.decode()` of ASCII is
the identity). -/
def readArmAttributes (data : List Nat) : Option (Option (List Nat)) :=
  if data.length = 0 ∨ data.headD 0 ≠ 0x41 then some none
  else
    let d1 := data.drop 1
    let d2 := pySlice d1 4 (fromLE (d1.take 4))
    match pyIndex d2 0 with
    | none => none
    | some sz =>
      if d2.take sz ≠ [97, 101, 97, 98, 105] then some none
      else
        match d2.drop (sz + 1) with
        | [] => none
        | b :: d4 =>
          if b ≠ 1 then some none
          else
            match pySlice d4 4 (fromLE (d4.take 4)) with
            | [] => none
            | c :: d6 =>
              if c ≠ 5 then some none
              else
                match pyIndex d6 0 with
                | none => none
                | some sz3 => some (some (d6.take sz3))

/-- Modelled from the spec: the grammar for the ARM attributes payload —
leading byte `0x41`, a little-endian u32 total size (covering everything
after the `0x41`), the NUL-terminated vendor name `aeabi`
(bytes 97 101 97 98 105), the file-scope tag byte `1`, a little-endian u32
subsection size (covering from its own field to the end), the tag byte `5`,
and the NUL-terminated CPU name (free of interior NULs, ending the
payload).  Returns the CPU name bytes on a match. -/
def armGrammarCPU : List Nat → Option (List Nat)
  | 0x41 :: s0 :: s1 :: s2 :: s3 :: 97 :: 101 :: 97 :: 98 :: 105 :: 0 :: 1 ::
      t0 :: t1 :: t2 :: t3 :: 5 :: rest =>
    if fromLE [s0, s1, s2, s3] = rest.length + 16 ∧
        fromLE [t0, t1, t2, t3] = rest.length + 5 ∧
        rest.getLastD 1 = 0 ∧ 0 ∉ rest.dropLast ∧ rest ≠ [] then
      some rest.dropLast
    else
      none
  | _ => none

/-- C8 counterexample: the 5-byte payload `41 FF FF FF FF` does not match
the grammar, yet `visit_ArmAttributesSection` does not return normally with
`tags` empty — the total-size slice is empty and `bytes.index(0)` raises
`ValueError` (modelled by the `none` result, distinct from the
normal-return-empty result `some none`). -/
theorem readArmAttributes_claim_false :
    armGrammarCPU [0x41, 0xFF, 0xFF, 0xFF, 0xFF] = none ∧
    readArmAttributes [0x41, 0xFF, 0xFF, 0xFF, 0xFF] = none ∧
    readArmAttributes [0x41, 0xFF, 0xFF, 0xFF, 0xFF] ≠ some none := by
  refine ⟨by decide, by decide, by decide⟩

/-- C8 amended: every payload of the grammar shape is parsed to a normal
return with `tags["CPU_name"]` set to the decoded CPU name (first conjunct:
such payloads match the spec-side grammar).  On a payload that does not
match, the visitor returns with `tags` empty on the guarded mismatches, but
can instead raise an uncaught exception on truncated or NUL-less data, as
the counterexample shows. -/
theorem readArmAttributes_of_grammar (s0 s1 s2 s3 t0 t1 t2 t3 : Nat) (name : List Nat)
    (hS : fromLE [s0, s1, s2, s3] = name.length + 17)
    (hT : fromLE [t0, t1, t2, t3] = name.length + 6)
    (hz : 0 ∉ name) :
    armGrammarCPU (0x41 :: s0 :: s1 :: s2 :: s3 :: 97 :: 101 :: 97 :: 98 :: 105 :: 0 :: 1 ::
      t0 :: t1 :: t2 :: t3 :: 5 :: (name ++ [0])) = some name ∧
    readArmAttributes (0x41 :: s0 :: s1 :: s2 :: s3 :: 97 :: 101 :: 97 :: 98 :: 105 :: 0 :: 1 ::
      t0 :: t1 :: t2 :: t3 :: 5 :: (name ++ [0])) = some (some name) := by
  have hlen1 : (s0 :: s1 :: s2 :: s3 :: 97 :: 101 :: 97 :: 98 :: 105 :: 0 :: 1 ::
      t0 :: t1 :: t2 :: t3 :: 5 :: (name ++ [0])).length = name.length + 17 := by
    simp
  have hslice1 : pySlice (s0 :: s1 :: s2 :: s3 :: 97 :: 101 :: 97 :: 98 :: 105 :: 0 :: 1 ::
      t0 :: t1 :: t2 :: t3 :: 5 :: (name ++ [0])) 4 (name.length + 17) =
      97 :: 101 :: 97 :: 98 :: 105 :: 0 :: 1 :: t0 :: t1 :: t2 :: t3 :: 5 ::
        (name ++ [0]) := by
    unfold pySlice
    rw [← hlen1, List.take_length]
    rfl
  have hlen2 : (t0 :: t1 :: t2 :: t3 :: 5 :: (name ++ [0])).length = name.length + 6 := by simp
  have hslice2 : pySlice (t0 :: t1 :: t2 :: t3 :: 5 :: (name ++ [0])) 4 (name.length + 6) =
      5 :: (name ++ [0]) := by
    unfold pySlice
    rw [← hlen2, List.take_length]
    rfl
  have hpy5 : pyIndex (97 :: 101 :: 97 :: 98 :: 105 :: 0 :: 1 ::
      t0 :: t1 :: t2 :: t3 :: 5 :: (name ++ [0])) 0 = some 5 := by
    simp [pyIndex]
  have hpyname : pyIndex (name ++ [0]) 0 = some name.length := pyIndex_append_terminator hz
  have htkname : (name ++ [0]).take name.length = name := by
    rw [List.take_append_of_le_length (le_refl _), List.take_length]
  constructor
  · simp only [armGrammarCPU]
    rw [if_pos ⟨by rw [hS]; simp, by rw [hT]; simp, by rw [getLastD_append_cons]; rfl,
      by rw [List.dropLast_concat]; exact hz, by simp⟩]
    rw [List.dropLast_concat]
  · simp only [readArmAttributes]
    rw [if_neg (by simp)]
    simp only [List.drop_succ_cons, List.drop_zero, List.take_succ_cons, List.take_zero]
    rw [hS, hslice1, hpy5]
    show (if (97 :: 101 :: 97 :: 98 :: 105 :: 0 :: 1 ::
        t0 :: t1 :: t2 :: t3 :: 5 :: (name ++ [0])).take 5 ≠ [97, 101, 97, 98, 105] then
        some none
      else
        match (97 :: 101 :: 97 :: 98 :: 105 :: 0 :: 1 ::
            t0 :: t1 :: t2 :: t3 :: 5 :: (name ++ [0])).drop (5 + 1) with
        | [] => none
        | b :: d4 =>
          if b ≠ 1 then some none
          else
            match pySlice d4 4 (fromLE (d4.take 4)) with
            | [] => none
            | c :: d6 =>
              if c ≠ 5 then some none
              else
                match pyIndex d6 0 with
                | none => none
                | some sz3 => some (some (d6.take sz3))) = some (some name)
    rw [if_neg (by simp)]
    simp only [List.drop_succ_cons, List.drop_zero, List.take_succ_cons, List.take_zero]
    rw [if_neg (by simp), hT, hslice2]
    show (if (5 : Nat) ≠ 5 then some none
      else
        match pyIndex (name ++ [0]) 0 with
        | none => none
        | some sz3 => some (some ((name ++ [0]).take sz3))) = some (some name)
    rw [if_neg (by simp), hpyname]
    show some (some ((name ++ [0]).take name.length)) = some (some name)
    rw [htkname]

/-- C8 amended witness: a well-formed payload carrying the CPU name "M"
(byte 77, sizes 18 and 7) is parsed to `CPU_name = [77]`. -/
theorem readArmAttributes_of_grammar_witness :
    armGrammarCPU [0x41, 18, 0, 0, 0, 97, 101, 97, 98, 105, 0, 1,
      7, 0, 0, 0, 5, 77, 0] = some [77] ∧
    readArmAttributes [0x41, 18, 0, 0, 0, 97, 101, 97, 98, 105, 0, 1,
      7, 0, 0, 0, 5, 77, 0] = some (some [77]) :=
  readArmAttributes_of_grammar 18 0 0 0 7 0 0 0 [77] (by decide) (by decide) (by decide)

/-! ## mkextmod: symbols, veneers and relocation conversion (mkextmod.py)

Symbol and section names are ASCII byte lists (`str` slicing and
comparison coincide with list slicing and comparison for ASCII). -/

/-- The resolved section a symbol points at, as the veneer/relocation code
uses it: its `sh_addr` and raw data bytes. -/
structure MSecRef where
  sh_addr : Nat
  data : List Nat
deriving DecidableEq, Repr

/-- An input `Symbol` as mkextmod uses it: resolved `name`, the `st_*`
fields it reads, and the resolved defining section (`sec`, the model of
`sym.section`; `none` for undefined or reserved `st_shndx`). -/
structure MSym where
  name : List Nat
  st_value : Nat
  st_size : Nat
  st_shndx : Nat
  sec : Option MSecRef
deriving DecidableEq, Repr

/-- An input `Rel` entry after `Dereference`: raw fields plus the resolved
`symbol`. -/
structure MRel where
  r_offset : Nat
  r_info : Nat
  symbol : MSym
deriving DecidableEq, Repr

/-- A `RelocationWithAddend` appended to `.rela.dyn`: the constructor
arguments of mkextmod's `RelocationWithAddend(mk_dyn(sym), r_offset=...,
r_info=.../r_type=..., r_addend=...)`.  The addend is the exact Python
integer handed to the constructor. -/
structure MRela where
  r_offset : Nat
  r_info : Nat
  r_addend : Int
  symbol : MSym
deriving DecidableEq, Repr

/-- `R_TYPE(r_info) = r_info & 0xFF` (elf.py). -/
def rType (info : Nat) : Nat := info &&& 0xFF

/-- `mk_dyn(sym)` (mkextmod.py 77-90): the `.dynsym` clone of `sym` — same
name/section/value/size/info/other, `st_shndx` kept iff the symbol has a
section, else `SHN_UNDEF` (0).  The memoisation on `sym.dyn` affects only
object identity (the eventual `.dynsym` index), not the clone's fields. -/
def mk_dyn (sym : MSym) : MSym :=
  { sym with st_shndx := if sym.sec.isSome then sym.st_shndx else 0 }

/-- `decode_addend(r_type, insn)` (mkextmod.py 132-155); the trailing
`raise ValueError()` is the error case.  Types: 2 = `R_ARM_ABS32`,
38 = `R_ARM_TARGET1`, 42 = `R_ARM_PREL31`, 10 = `R_ARM_THM_PC22`,
30 = `R_ARM_THM_JUMP24` (elf.py). -/
def decode_addend (r_type : Nat) (insn : Nat) : Except String Int :=
  if r_type = 2 ∨ r_type = 38 then
    .ok insn
  else if r_type = 42 then
    let i := insn &&& 0x7FFFFFFF
    .ok (if i &&& 0x40000000 ≠ 0 then (i : Int) - 0x80000000 else (i : Int))
  else if r_type = 10 ∨ r_type = 30 then
    let i := ((insn &&& 0x7FF) <<< 11) ||| ((insn &&& 0x7FF0000) >>> 16)
    .ok ((if i &&& 0x200000 ≠ 0 then (i : Int) - 0x400000 else (i : Int)) * 2)
  else
    .error "ValueError"

/-- `undo_relocation(r_type, S, P, A)` (mkextmod.py 158-169).  `S &= -2`
clears the lowest bit of the nonnegative symbol value, i.e. `2 * (S / 2)`. -/
def undo_relocation (r_type : Nat) (S P : Nat) (A : Int) : Except String Int :=
  if r_type = 2 ∨ r_type = 38 then
    .ok (A - S)
  else if r_type = 10 ∨ r_type = 30 ∨ r_type = 42 then
    .ok (A - (((2 * (S / 2) : Nat) : Int) - (P : Int)))
  else
    .error "ValueError"

/-- The per-`SHT_REL`-section context of the relocation conversion loop
(mkextmod.py 172-237): the target (`section.info`) flags, address and data,
the linked symtab's symbols (`section.link.symbols`), and the input
relocations. -/
structure MRelSec where
  infoFlags : Nat
  infoAddr : Nat
  infoData : List Nat
  linkSymbols : List MSym
  relocs : List MRel
deriving Repr

/-- The conversion loop body for one input `Rel` (mkextmod.py 176-235):
the `Rela` entries appended to `.rela.dyn` for it (empty on skip), or an
error for a `raise`/failed `assert`.  The byte offset into the target data
is `r_offset - sh_addr` on `Nat`; the theorems assume `sh_addr ≤ r_offset`
(the layout of a linked input — Python's negative-index slicing is not
modelled). -/
def convertRel (sec : MRelSec) (rel : MRel) : Except String (List MRela) := do
  let sym := rel.symbol
  if sym.st_shndx = 0 then
    return []
  let sym ←
    if (rType rel.r_info = 10 ∨ rType rel.r_info = 30) ∧
        sym.st_value >>> 28 ≠ rel.r_offset >>> 28 then
      match sec.linkSymbols.filter
          (fun st => st.name = [95, 95] ++ sym.name ++ [95, 118, 101, 110, 101, 101, 114]) with
      | [] => throw "missing veneer"
      | v :: _ => pure v
    else pure sym
  if ¬(rType rel.r_info = 2 ∨ rType rel.r_info = 38 ∨ rType rel.r_info = 10 ∨
      rType rel.r_info = 30 ∨ rType rel.r_info = 42) then
    throw "unsupported relocation type"
  let file_offset := rel.r_offset - sec.infoAddr
  let insn := fromLE (pySlice sec.infoData file_offset (file_offset + 4))
  let addend ← decode_addend (rType rel.r_info) insn
  let addend ← undo_relocation (rType rel.r_info) sym.st_value rel.r_offset addend
  if sym.sec.isSome then
    if rType rel.r_info = 2 ∨ rType rel.r_info = 38 then
      return [⟨rel.r_offset, rel.r_info, addend, mk_dyn sym⟩]
    else if rType rel.r_info = 10 ∨ rType rel.r_info = 30 ∨ rType rel.r_info = 42 then
      if sym.st_value >>> 28 = rel.r_offset >>> 28 then
        return []
      else
        throw "assert"
    else
      throw "ValueError"
  else
    if (rType rel.r_info = 10 ∨ rType rel.r_info = 30) ∧
        ¬(addend.natAbs < 0x400000) then
      throw "assert"
    else
      return [⟨rel.r_offset, rel.r_info, addend, mk_dyn sym⟩]

/-- The conversion loop over a section's relocations, concatenating the
`.rela.dyn` entries appended for each in order. -/
def convertRelocs (sec : MRelSec) : List MRel → Except String (List MRela)
  | [] => .ok []
  | r :: rs => do
    let a ← convertRel sec r
    let b ← convertRelocs sec rs
    return a ++ b

/-- One `SHT_REL` section of the conversion loop (mkextmod.py 172-175,
237): a section whose target is not `SHF_ALLOC` (bit 2) is deleted with
nothing appended; otherwise its relocations are converted (the section is
deleted afterwards in both cases). -/
def convertSection (sec : MRelSec) : Except String (List MRela) :=
  if sec.infoFlags &&& 2 = 0 then .ok []
  else convertRelocs sec sec.relocs

/-- The veneer-synthesis part of the symbol loop body (mkextmod.py 93-129)
for one symbol: the `Rela` entries appended to `.rela.dyn` for it.  (The
`mk_dyn` promotion of externally-visible symbols on lines 97-98 touches
only `.dynsym`, not `.rela.dyn`, and is not modelled here.)  `symbols` is
the owning symtab's symbol list, as searched by `get_all_symbols`. -/
def veneerStep (symbols : List MSym) (veneer_symbol_offset : Nat) (sym : MSym) :
    Except String (List MRela) :=
  match sym.sec with
  | none => .ok []
  | some sec =>
    if [95, 95] <+: sym.name ∧ [95, 118, 101, 110, 101, 101, 114] <:+ sym.name then
      if ¬(veneer_symbol_offset + 4 ≤ sym.st_size) then
        .error "assert"
      else
        let r_offset := (sym.st_value &&& 0xFFFFFFFE) + veneer_symbol_offset
        let file_offset := r_offset - sec.sh_addr
        let real_sym_value := fromLE (pySlice sec.data file_offset (file_offset + 4))
        let real_sym_name := pySlice sym.name 2 (sym.name.length - 7)
        match (symbols.filter fun st => st.name = real_sym_name).filter
            (fun x => x.st_value = real_sym_value) with
        | [] => .error "cannot find symbol"
        | r :: _ => .ok [⟨r_offset, 2, 0, mk_dyn r⟩]
    else .ok []

/-- The veneer-synthesis loop over a symtab's symbols (mkextmod.py 93-94). -/
def veneerSyms (symbols : List MSym) (veneer_symbol_offset : Nat) :
    List MSym → Except String (List MRela)
  | [] => .ok []
  | s :: rest => do
    let a ← veneerStep symbols veneer_symbol_offset s
    let b ← veneerSyms symbols veneer_symbol_offset rest
    return a ++ b

theorem convertRelocs_append (sec : MRelSec) (l₁ l₂ : List MRel) :
    convertRelocs sec (l₁ ++ l₂) = (convertRelocs sec l₁).bind fun a =>
      (convertRelocs sec l₂).map fun b => a ++ b := by
  induction l₁ with
  | nil =>
    simp only [List.nil_append, convertRelocs]
    cases convertRelocs sec l₂ with
    | error e => rfl
    | ok b => simp [Except.bind, Except.map]
  | cons r rs ih =>
    simp only [List.cons_append, convertRelocs]
    cases hr : convertRel sec r with
    | error e => rfl
    | ok a =>
      cases h1 : convertRelocs sec rs with
      | error e =>
        have h1' : convertRelocs sec (rs ++ l₂) = Except.error e := by
          rw [ih, h1]; rfl
        simp only [h1, h1', hr, List.append_eq]
        rfl
      | ok a1 =>
        cases h2 : convertRelocs sec l₂ with
        | error e =>
          have h1' : convertRelocs sec (rs ++ l₂) = Except.error e := by
            rw [ih, h1, h2]; rfl
          simp only [h1, h2, h1', hr, List.append_eq]
          rfl
        | ok b =>
          have h1' : convertRelocs sec (rs ++ l₂) = Except.ok (a1 ++ b) := by
            rw [ih, h1, h2]; rfl
          simp only [h1, h2, h1', hr, List.append_eq]
          show Except.ok (a ++ (a1 ++ b)) = Except.ok ((a ++ a1) ++ b)
          rw [List.append_assoc]

theorem veneerSyms_append (symbols : List MSym) (off : Nat) (l₁ l₂ : List MSym) :
    veneerSyms symbols off (l₁ ++ l₂) = (veneerSyms symbols off l₁).bind fun a =>
      (veneerSyms symbols off l₂).map fun b => a ++ b := by
  induction l₁ with
  | nil =>
    simp only [List.nil_append, veneerSyms]
    cases veneerSyms symbols off l₂ with
    | error e => rfl
    | ok b => simp [Except.bind, Except.map]
  | cons r rs ih =>
    simp only [List.cons_append, veneerSyms]
    cases hr : veneerStep symbols off r with
    | error e => rfl
    | ok a =>
      cases h1 : veneerSyms symbols off rs with
      | error e =>
        have h1' : veneerSyms symbols off (rs ++ l₂) = Except.error e := by
          rw [ih, h1]; rfl
        simp only [h1, h1', hr, List.append_eq]
        rfl
      | ok a1 =>
        cases h2 : veneerSyms symbols off l₂ with
        | error e =>
          have h1' : veneerSyms symbols off (rs ++ l₂) = Except.error e := by
            rw [ih, h1, h2]; rfl
          simp only [h1, h2, h1', hr, List.append_eq]
          rfl
        | ok b =>
          have h1' : veneerSyms symbols off (rs ++ l₂) = Except.ok (a1 ++ b) := by
            rw [ih, h1, h2]; rfl
          simp only [h1, h2, h1', hr, List.append_eq]
          show Except.ok (a ++ (a1 ++ b)) = Except.ok ((a ++ a1) ++ b)
          rw [List.append_assoc]

/-- C1: for an input `SHT_REL` relocation of type `R_ARM_ABS32` (2) or
`R_ARM_TARGET1` (38), in a section whose target (`info`) is `SHF_ALLOC`,
whose symbol has a resolved section and whose original `st_shndx` is not
`SHN_UNDEF`, the conversion loop appends exactly one `RelocationWithAddend`
to `.rela.dyn`, with `r_offset` and `r_info` copied from the input and
`r_addend` equal to the little-endian 32-bit word read from the target's
data at byte offset `r_offset - sh_addr`, minus the symbol's `st_value`. -/
theorem conversion_loop_abs32 (sec : MRelSec) (rel : MRel) (sref : MSecRef)
    (halloc : sec.infoFlags &&& 2 ≠ 0)
    (hshndx : rel.symbol.st_shndx ≠ 0)
    (htype : rType rel.r_info = 2 ∨ rType rel.r_info = 38)
    (hsec : rel.symbol.sec = some sref)
    (haddr : sec.infoAddr ≤ rel.r_offset) :
    convertRel sec rel = .ok [⟨rel.r_offset, rel.r_info,
      (fromLE (pySlice sec.infoData (rel.r_offset - sec.infoAddr)
        (rel.r_offset - sec.infoAddr + 4)) : Int) - rel.symbol.st_value,
      mk_dyn rel.symbol⟩] ∧
    ∀ pre post, sec.relocs = pre ++ rel :: post →
      convertSection sec = (convertRelocs sec pre).bind fun a =>
        (convertRelocs sec post).map fun b =>
          a ++ (⟨rel.r_offset, rel.r_info,
            (fromLE (pySlice sec.infoData (rel.r_offset - sec.infoAddr)
              (rel.r_offset - sec.infoAddr + 4)) : Int) - rel.symbol.st_value,
            mk_dyn rel.symbol⟩ : MRela) :: b := by
  have h1030 : ¬((rType rel.r_info = 10 ∨ rType rel.r_info = 30) ∧
      rel.symbol.st_value >>> 28 ≠ rel.r_offset >>> 28) := by
    rcases htype with h | h <;> simp [h]
  have hsupp : rType rel.r_info = 2 ∨ rType rel.r_info = 38 ∨ rType rel.r_info = 10 ∨
      rType rel.r_info = 30 ∨ rType rel.r_info = 42 := by
    rcases htype with h | h
    · exact Or.inl h
    · exact Or.inr (Or.inl h)
  have hIsSome : rel.symbol.sec.isSome = true := by rw [hsec]; rfl
  have hone : convertRel sec rel = .ok [⟨rel.r_offset, rel.r_info,
      (fromLE (pySlice sec.infoData (rel.r_offset - sec.infoAddr)
        (rel.r_offset - sec.infoAddr + 4)) : Int) - rel.symbol.st_value,
      mk_dyn rel.symbol⟩] := by
    simp only [convertRel, if_neg hshndx, if_neg h1030, not_not, hsupp, if_pos hsupp,
      decode_addend, undo_relocation, if_pos htype, hIsSome]
    simp [hIsSome]
    rfl
  refine ⟨hone, ?_⟩
  intro pre post hsplit
  unfold convertSection
  rw [if_neg halloc, hsplit, convertRelocs_append]
  cases h1 : convertRelocs sec pre with
  | error e => rfl
  | ok a =>
    cases h2 : convertRelocs sec post with
    | error e =>
      simp only [convertRelocs, hone, h2]
      rfl
    | ok b =>
      simp only [convertRelocs, hone, h2]
      rfl

/-- C1 witness: scenario 2 — `.text` word `DE AD BE EF` at `0x10000000`
(the target section's base), an `R_ARM_ABS32` relocation at `r_offset
0x10000000` against symbol `target` with `st_value 0x10001000`: the single
emitted `Rela` preserves `r_offset`/`r_info` and has addend
`0xEFBEADDE - 0x10001000`. -/
theorem conversion_loop_abs32_witness :
    convertRel
      ⟨2, 0x10000000, [0xDE, 0xAD, 0xBE, 0xEF],
        [],
        [⟨0x10000000, 0x102,
          ⟨[116, 97, 114, 103, 101, 116], 0x10001000, 0, 1, some ⟨0x10001000, []⟩⟩⟩]⟩
      ⟨0x10000000, 0x102,
        ⟨[116, 97, 114, 103, 101, 116], 0x10001000, 0, 1, some ⟨0x10001000, []⟩⟩⟩ =
      .ok [⟨0x10000000, 0x102, (0xEFBEADDE : Int) - 0x10001000,
        mk_dyn ⟨[116, 97, 114, 103, 101, 116], 0x10001000, 0, 1, some ⟨0x10001000, []⟩⟩⟩] ∧
    convertSection
      ⟨2, 0x10000000, [0xDE, 0xAD, 0xBE, 0xEF],
        [],
        [⟨0x10000000, 0x102,
          ⟨[116, 97, 114, 103, 101, 116], 0x10001000, 0, 1, some ⟨0x10001000, []⟩⟩⟩]⟩ =
      .ok [⟨0x10000000, 0x102, (0xEFBEADDE : Int) - 0x10001000,
        mk_dyn ⟨[116, 97, 114, 103, 101, 116], 0x10001000, 0, 1, some ⟨0x10001000, []⟩⟩⟩] := by
  have h := conversion_loop_abs32
    ⟨2, 0x10000000, [0xDE, 0xAD, 0xBE, 0xEF],
      [],
      [⟨0x10000000, 0x102,
        ⟨[116, 97, 114, 103, 101, 116], 0x10001000, 0, 1, some ⟨0x10001000, []⟩⟩⟩]⟩
    ⟨0x10000000, 0x102,
      ⟨[116, 97, 114, 103, 101, 116], 0x10001000, 0, 1, some ⟨0x10001000, []⟩⟩⟩
    ⟨0x10001000, []⟩ (by decide) (by decide) (by decide) rfl (by decide)
  refine ⟨by rw [h.1]; rfl, by rw [h.2 [] [] rfl]; rfl⟩

/-- C4 counterexample: a Thumb veneer symbol has its low bit set
(`st_value = 0x10000101`), and the synthesized relocation's `r_offset` is
`(st_value & ~1) + veneer_symbol_offset = 0x1000010C`, not
`st_value + veneer_symbol_offset = 0x1000010D` as the claim states. -/
theorem veneer_offset_claim_false :
    veneerStep
      [⟨[102, 111, 111], 0x20000001, 0, 2, some ⟨0x20000000, []⟩⟩]
      12
      ⟨[95, 95, 102, 111, 111, 95, 118, 101, 110, 101, 101, 114], 0x10000101, 16, 1,
        some ⟨0x10000100, List.replicate 12 0 ++ [1, 0, 0, 32]⟩⟩ =
      .ok [⟨0x1000010C, 2, 0,
        mk_dyn ⟨[102, 111, 111], 0x20000001, 0, 2, some ⟨0x20000000, []⟩⟩⟩] ∧
    (0x1000010C : Nat) ≠ 0x10000101 + 12 := by
  exact ⟨by rfl, by decide⟩

/-- C4 amended: for every defined input symbol named `__<X>_veneer` (with
the assert `veneer_symbol_offset + 4 ≤ st_size` passing and a real symbol
`<X>` found whose `st_value` equals the literal word read from the veneer),
the veneer-synthesis loop appends exactly one `R_ARM_ABS32`
`RelocationWithAddend` against the dyn-copy of the real symbol, with
`r_offset = (st_value & 0xFFFFFFFE) + veneer_symbol_offset` — the Thumb bit
is masked off before the offset is added — and addend 0. -/
theorem veneer_synthesis (symbols : List MSym) (off : Nat) (sym : MSym) (sec : MSecRef)
    (hsec : sym.sec = some sec)
    (hname : [95, 95] <+: sym.name ∧ [95, 118, 101, 110, 101, 101, 114] <:+ sym.name)
    (hsz : off + 4 ≤ sym.st_size)
    (r : MSym) (rest : List MSym)
    (hfind : (symbols.filter fun st => st.name = pySlice sym.name 2 (sym.name.length - 7)).filter
        (fun x => x.st_value = fromLE (pySlice sec.data
          ((sym.st_value &&& 0xFFFFFFFE) + off - sec.sh_addr)
          ((sym.st_value &&& 0xFFFFFFFE) + off - sec.sh_addr + 4))) = r :: rest) :
    veneerStep symbols off sym =
      .ok [⟨(sym.st_value &&& 0xFFFFFFFE) + off, 2, 0, mk_dyn r⟩] ∧
    ∀ pre post, veneerSyms symbols off (pre ++ sym :: post) =
      (veneerSyms symbols off pre).bind fun a =>
        (veneerSyms symbols off post).map fun b =>
          a ++ (⟨(sym.st_value &&& 0xFFFFFFFE) + off, 2, 0, mk_dyn r⟩ : MRela) :: b := by
  have hone : veneerStep symbols off sym =
      .ok [⟨(sym.st_value &&& 0xFFFFFFFE) + off, 2, 0, mk_dyn r⟩] := by
    simp only [veneerStep, hsec]
    rw [if_pos hname, if_neg (not_not_intro hsz), hfind]
  refine ⟨hone, ?_⟩
  intro pre post
  rw [veneerSyms_append]
  cases h1 : veneerSyms symbols off pre with
  | error e => rfl
  | ok a =>
    cases h2 : veneerSyms symbols off post with
    | error e =>
      simp only [veneerSyms, hone, h2]
      rfl
    | ok b =>
      simp only [veneerSyms, hone, h2]
      rfl

/-- C4 amended witness: scenario 4 — CPU `6S-M` (offset 12), veneer
`__foo_veneer` at `0x10000101` of size 16 in a section based at
`0x10000100`, with the literal `0x20000001` stored 12 bytes into the
veneer, and real symbol `foo` at `0x20000001`: one `R_ARM_ABS32` at
`0x1000010C` with addend 0 against `foo`'s dyn copy. -/
theorem veneer_synthesis_witness :
    veneerStep
      [⟨[102, 111, 111], 0x20000001, 0, 2, some ⟨0x20000000, []⟩⟩]
      12
      ⟨[95, 95, 102, 111, 111, 95, 118, 101, 110, 101, 101, 114], 0x10000101, 16, 1,
        some ⟨0x10000100, List.replicate 12 0 ++ [1, 0, 0, 32]⟩⟩ =
      .ok [⟨(0x10000101 &&& 0xFFFFFFFE) + 12, 2, 0,
        mk_dyn ⟨[102, 111, 111], 0x20000001, 0, 2, some ⟨0x20000000, []⟩⟩⟩] :=
  (veneer_synthesis
    [⟨[102, 111, 111], 0x20000001, 0, 2, some ⟨0x20000000, []⟩⟩]
    12
    ⟨[95, 95, 102, 111, 111, 95, 118, 101, 110, 101, 101, 114], 0x10000101, 16, 1,
      some ⟨0x10000100, List.replicate 12 0 ++ [1, 0, 0, 32]⟩⟩
    ⟨0x10000100, List.replicate 12 0 ++ [1, 0, 0, 32]⟩
    rfl (by decide) (by decide)
    ⟨[102, 111, 111], 0x20000001, 0, 2, some ⟨0x20000000, []⟩⟩ []
    (by decide)).1

/-! ## Layout passes (`ComputeAddresses`, `ComputeOffsets`, elfmodel.py) -/

/-- The section variant driving visitor dispatch in the layout passes:
plain sections (including `SHT_NULL` rows), and the `.ehdrP`/`.phdrsP`
pseudo-sections with their `ComputeOffsets` overrides. -/
inductive SKind
  | normal
  | ehdrP
  | phdrsP
deriving DecidableEq, Repr

/-- The `data`/entries state determining `Section.size` (elfmodel.py 96-102,
127-129): `size` is `len(data)` when `data` is truthy (non-None and
non-empty), else `sh_size`; an `EntrySection` overrides `size` to
`len(entries) * entry_size`. -/
inductive SData
  | noData
  | bytes (n : Nat)
  | entries (count entsize : Nat)
deriving DecidableEq, Repr

/-- A section as the layout passes see it.  `paddr` is an `Option` because
the Python attribute may be unset (reading it then raises
`AttributeError`); `ComputeAddresses.visit_Segment` presets it only for
members of fixed segments, which is modelled by the input value. -/
structure ASec where
  kind : SKind
  sh_type : Nat
  sh_flags : Nat
  sh_addr : Nat
  sh_offset : Nat
  sh_size : Nat
  sh_addralign : Nat
  sdata : SData
  fixed : Bool
  paddr : Option Nat
deriving DecidableEq, Repr

/-- `Section.size` / `EntrySection.size`. -/
def ASec.size (s : ASec) : Nat :=
  match s.sdata with
  | .entries c e => c * e
  | .bytes (n + 1) => n + 1
  | _ => s.sh_size

/-- `Section.psize`: zero for `SHT_NOBITS` (8), else `size`. -/
def ASec.psize (s : ASec) : Nat :=
  if s.sh_type = 8 then 0 else s.size

/-- `ComputeAddresses.visit_Section` (elfmodel.py 516-540) for one section,
threading `(next_flash, next_ram)`.  `none` models a failed `align` assert
or the `AttributeError` of reading an unset `paddr` on a fixed
flash-resident section.  The source's `if not section.fixed:` branches are
written with the `fixed` case first. -/
def caStep (nf nr : Nat) (s0 : ASec) : Option (ASec × Nat × Nat) :=
  let s1 := { s0 with sh_size := s0.size }
  if s1.sh_flags &&& 2 = 0 then some (s1, nf, nr) else
  match (if s1.sh_flags &&& 1 ≠ 0 then
          match (if s1.fixed then some s1
                 else match align nr s1.sh_addralign with
                      | none => none
                      | some a => some { s1 with sh_addr := a }) with
          | none => none
          | some s2 =>
            match align s2.size s2.sh_addralign with
            | none => none
            | some adv => some (s2, s2.sh_addr + adv)
        else some (s1, nr)) with
  | none => none
  | some (s2, nr2) =>
    match (if s2.sh_flags &&& 1 = 0 ∨ s2.sh_type ≠ 8 then
            match (if s2.fixed then some s2
                   else match align nf s2.sh_addralign with
                        | none => none
                        | some a => some { s2 with paddr := some a }) with
            | none => none
            | some s3 =>
              match s3.paddr with
              | none => none
              | some pa =>
                match align s3.psize s3.sh_addralign with
                | none => none
                | some adv => some (s3, pa + adv)
          else some (s2, nf)) with
    | none => none
    | some (s3, nf3) =>
      if s3.fixed then some (s3, nf3, nr2)
      else if s3.sh_flags &&& 1 = 0 then
        match s3.paddr with
        | none => none
        | some pa => some ({ s3 with sh_addr := pa }, nf3, nr2)
      else if s3.sh_type = 8 then
        some ({ s3 with paddr := some s3.sh_addr }, nf3, nr2)
      else some (s3, nf3, nr2)

/-- The section walk of `ComputeAddresses.visit_Elf`, in list order. -/
def caFold : Nat → Nat → List ASec → Option (List ASec × Nat × Nat)
  | nf, nr, [] => some ([], nf, nr)
  | nf, nr, s :: rest =>
    (caStep nf nr s).bind fun p =>
    (caFold p.2.1 p.2.2 rest).map fun q => (p.1 :: q.1, q.2)

/-- `ComputeAddresses().visit(elffile)` restricted to its section walk,
with the source's initial cursors `next_flash = 0x10000000` and
`next_ram = 0x20000000` (elfmodel.py 499-506). -/
def computeAddresses (secs : List ASec) : Option (List ASec × Nat × Nat) :=
  caFold 0x10000000 0x20000000 secs

/-- Setting `sh_size` to the current `size` (the first line of
`visit_Section`) does not change `size`. -/
theorem size_update (s : ASec) : ({ s with sh_size := s.size } : ASec).size = s.size := by
  unfold ASec.size
  cases hs : s.sdata with
  | noData => simp [ASec.size, hs]
  | bytes n => cases n <;> simp [ASec.size, hs]
  | entries c e => simp [hs]

theorem psize_update (s : ASec) : ({ s with sh_size := s.size } : ASec).psize = s.psize := by
  unfold ASec.psize
  rw [size_update]

@[simp] theorem psize_paddr (s : ASec) (x : Option Nat) :
    ({ s with paddr := x } : ASec).psize = s.psize := rfl

@[simp] theorem psize_addr (s : ASec) (x : Nat) :
    ({ s with sh_addr := x } : ASec).psize = s.psize := rfl

@[simp] theorem size_paddr (s : ASec) (x : Option Nat) :
    ({ s with paddr := x } : ASec).size = s.size := rfl

@[simp] theorem size_addr (s : ASec) (x : Nat) :
    ({ s with sh_addr := x } : ASec).size = s.size := rfl

theorem size_congr {s t : ASec} (h1 : t.sdata = s.sdata) (h2 : t.sh_size = s.sh_size) :
    t.size = s.size := by
  unfold ASec.size
  rw [h1, h2]

theorem psize_congr {s t : ASec} (h1 : t.sdata = s.sdata) (h2 : t.sh_size = s.sh_size)
    (h3 : t.sh_type = s.sh_type) : t.psize = s.psize := by
  unfold ASec.psize
  rw [h3, size_congr h1 h2]

/-- Single-section guarantees of `visit_Section` on a non-fixed layout:
cursors are monotone, and an `SHF_ALLOC` output section lands at or after
the relevant cursor, aligned, with the cursor advanced past its `size`
(ram) resp. `psize` (flash). -/
theorem caStep_spec {nf nr : Nat} {s s' : ASec} {nf' nr' : Nat}
    (hfix : s.sh_flags &&& 2 ≠ 0 → s.fixed = false)
    (h : caStep nf nr s = some (s', nf', nr')) :
    nf ≤ nf' ∧ nr ≤ nr' ∧
    (s'.sh_flags &&& 2 ≠ 0 →
      (s'.sh_flags &&& 1 ≠ 0 →
        nr ≤ s'.sh_addr ∧ s'.sh_addr + s'.size ≤ nr' ∧ s'.sh_addralign ∣ s'.sh_addr) ∧
      (s'.sh_flags &&& 1 = 0 →
        nf ≤ s'.sh_addr ∧ s'.sh_addr + s'.psize ≤ nf' ∧ s'.sh_addralign ∣ s'.sh_addr)) := by
  by_cases halloc : s.sh_flags &&& 2 = 0
  · simp only [caStep, halloc, if_true, reduceIte] at h
    obtain ⟨hs', hnf', hnr'⟩ := h
    exact ⟨by omega, by omega, fun hna => absurd halloc hna⟩
  · have hf : s.fixed = false := hfix halloc
    by_cases hw : s.sh_flags &&& 1 = 0
    · simp only [caStep, halloc, hw, hf, reduceIte, ne_eq, not_true_eq_false,
        Bool.false_eq_true, if_false, or_self, not_false_eq_true, if_true, true_or,
        or_true] at h
      cases haf : align nf s.sh_addralign with
      | none => rw [haf] at h; simp at h
      | some af =>
        rw [haf] at h
        dsimp only at h
        have hps : ({ s with sh_size := s.size, fixed := false, paddr := some af } : ASec).psize
            = s.psize :=
          (psize_congr (s := { s with sh_size := s.size }) rfl rfl rfl).trans (psize_update s)
        rw [hps] at h
        cases hadv : align s.psize s.sh_addralign with
        | none => rw [hadv] at h; simp at h
        | some adv =>
          rw [hadv] at h
          dsimp only at h
          simp only [hw, reduceIte, Bool.false_eq_true, if_false] at h
          simp only [Option.some.injEq, Prod.mk.injEq] at h
          obtain ⟨hs', hnf', hnr'⟩ := h
          subst hs' hnf' hnr'
          obtain ⟨hd1, hle1, _⟩ := align_spec haf
          obtain ⟨hd2, hle2, _⟩ := align_spec hadv
          have hps2 : ({ s with sh_size := s.size, sh_addr := af, fixed := false, paddr := some af } : ASec).psize = s.psize :=
            (psize_congr (s := { s with sh_size := s.size }) rfl rfl rfl).trans (psize_update s)
          refine ⟨by omega, le_refl _, fun _ => ⟨fun hww => absurd hw hww, fun _ =>
            ⟨hle1, ?_, hd1⟩⟩⟩
          show af + ({ s with sh_size := s.size, sh_addr := af, fixed := false, paddr := some af } : ASec).psize ≤ af + adv
          rw [hps2]
          omega
    · simp only [caStep, halloc, hw, hf, reduceIte, ne_eq, not_false_eq_true, if_true,
        Bool.false_eq_true, if_false] at h
      cases haw : align nr s.sh_addralign with
      | none => rw [haw] at h; simp at h
      | some aw =>
        rw [haw] at h
        dsimp only at h
        have hsz : ({ s with sh_size := s.size, sh_addr := aw, fixed := false } : ASec).size = s.size :=
          (size_congr (s := { s with sh_size := s.size }) rfl rfl).trans (size_update s)
        rw [hsz] at h
        cases hadw : align s.size s.sh_addralign with
        | none => rw [hadw] at h; simp at h
        | some advw =>
          rw [hadw] at h
          dsimp only at h
          by_cases h8 : s.sh_type = 8
          · simp only [hw, h8, ne_eq, not_true_eq_false, or_self, if_false, reduceIte,
              Bool.false_eq_true, if_true, not_false_eq_true] at h
            simp only [Option.some.injEq, Prod.mk.injEq] at h
            obtain ⟨hs', hnf', hnr'⟩ := h
            subst hs' hnf' hnr'
            obtain ⟨hd1, hle1, _⟩ := align_spec haw
            obtain ⟨_, hle2, _⟩ := align_spec hadw
            refine ⟨le_refl _, by omega, fun _ => ⟨fun _ => ⟨hle1, ?_, hd1⟩,
              fun hc => absurd hc hw⟩⟩
            have hsz2 : ({ s with sh_type := 8, sh_size := s.size, sh_addr := aw, fixed := false, paddr := some aw } : ASec).size = s.size := (size_congr (s := { s with sh_size := s.size }) rfl rfl).trans (size_update s)
            show aw + ({ s with sh_type := 8, sh_size := s.size, sh_addr := aw, fixed := false, paddr := some aw } : ASec).size ≤ aw + advw
            rw [hsz2]
            omega
          · simp only [hw, h8, ne_eq, not_false_eq_true, or_true, if_true, reduceIte,
              Bool.false_eq_true, if_false, not_true_eq_false] at h
            cases haf : align nf s.sh_addralign with
            | none => rw [haf] at h; simp at h
            | some af =>
              rw [haf] at h
              dsimp only at h
              have hps : ({ s with sh_size := s.size, sh_addr := aw, fixed := false, paddr := some af } : ASec).psize = s.psize := (psize_congr (s := { s with sh_size := s.size }) rfl rfl rfl).trans (psize_update s)
              rw [hps] at h
              cases hadv : align s.psize s.sh_addralign with
              | none => rw [hadv] at h; simp at h
              | some adv =>
                rw [hadv] at h
                dsimp only at h
                simp only [hw, h8, reduceIte, Bool.false_eq_true, if_false, ne_eq,
                  not_false_eq_true, if_true, not_true_eq_false] at h
                simp only [Option.some.injEq, Prod.mk.injEq] at h
                obtain ⟨hs', hnf', hnr'⟩ := h
                subst hs' hnf' hnr'
                obtain ⟨hd1, hle1, _⟩ := align_spec haw
                obtain ⟨_, hle2, _⟩ := align_spec hadw
                obtain ⟨_, hle3, _⟩ := align_spec haf
                refine ⟨by omega, by omega, fun _ => ⟨fun _ => ⟨hle1, ?_, hd1⟩,
                  fun hc => absurd hc hw⟩⟩
                have hsz2 : ({ s with sh_size := s.size, sh_addr := aw, fixed := false, paddr := some af } : ASec).size = s.size := (size_congr (s := { s with sh_size := s.size }) rfl rfl).trans (size_update s)
                show aw + ({ s with sh_size := s.size, sh_addr := aw, fixed := false, paddr := some af } : ASec).size ≤ aw + advw
                rw [hsz2]
                omega

/-- Fold invariant of the `ComputeAddresses` section walk: member bounds
and pairwise ordering of the assigned addresses. -/
theorem caFold_pair : ∀ (secs : List ASec) (nf nr : Nat) (out : List ASec) (nf' nr' : Nat),
    (∀ s ∈ secs, s.sh_flags &&& 2 ≠ 0 → s.fixed = false) →
    caFold nf nr secs = some (out, nf', nr') →
    nf ≤ nf' ∧ nr ≤ nr' ∧
    (∀ t ∈ out, t.sh_flags &&& 2 ≠ 0 →
      (t.sh_flags &&& 1 ≠ 0 → nr ≤ t.sh_addr ∧ t.sh_addr + t.size ≤ nr' ∧ t.sh_addralign ∣ t.sh_addr) ∧
      (t.sh_flags &&& 1 = 0 → nf ≤ t.sh_addr ∧ t.sh_addr + t.psize ≤ nf' ∧ t.sh_addralign ∣ t.sh_addr)) ∧
    (∀ (o₁ : List ASec) (ti : ASec) (o₂ : List ASec) (tj : ASec) (o₃ : List ASec),
      out = o₁ ++ ti :: o₂ ++ tj :: o₃ →
      ti.sh_flags &&& 2 ≠ 0 → tj.sh_flags &&& 2 ≠ 0 →
      (ti.sh_flags &&& 1 ≠ 0 → tj.sh_flags &&& 1 ≠ 0 → ti.sh_addr + ti.size ≤ tj.sh_addr) ∧
      (ti.sh_flags &&& 1 = 0 → tj.sh_flags &&& 1 = 0 → ti.sh_addr + ti.psize ≤ tj.sh_addr))
  | [], nf, nr, out, nf', nr', hfix, h => by
    simp only [caFold, Option.some.injEq, Prod.mk.injEq] at h
    obtain ⟨hout, hnf, hnr⟩ := h
    subst hout hnf hnr
    refine ⟨le_refl _, le_refl _, fun t ht => absurd ht (List.not_mem_nil t), ?_⟩
    intro o₁ ti o₂ tj o₃ hdec
    cases o₁ <;> simp at hdec
  | s :: rest, nf, nr, out, nf', nr', hfix, h => by
    cases hstep : caStep nf nr s with
    | none => rw [caFold, hstep] at h; simp at h
    | some p =>
      obtain ⟨t, nf₁, nr₁⟩ := p
      rw [caFold, hstep] at h
      dsimp only [Option.bind] at h
      cases hrest : caFold nf₁ nr₁ rest with
      | none => rw [hrest] at h; simp at h
      | some q =>
        obtain ⟨out', nf₂, nr₂⟩ := q
        rw [hrest] at h
        simp only [Option.map_some', Option.some.injEq, Prod.mk.injEq] at h
        obtain ⟨hout, hnf, hnr⟩ := h
        subst hout hnf hnr
        have hsp := caStep_spec (hfix s (List.mem_cons_self s rest)) hstep
        have hih := caFold_pair rest nf₁ nr₁ out' nf₂ nr₂
          (fun x hx => hfix x (List.mem_cons_of_mem s hx)) hrest
        obtain ⟨hnf1, hnr1, hsp2⟩ := hsp
        obtain ⟨hnf2, hnr2, hmem, hpair⟩ := hih
        refine ⟨by omega, by omega, ?_, ?_⟩
        · intro u hu hau
          rcases List.mem_cons.1 hu with rfl | hu'
          · refine ⟨fun hw => ?_, fun hro => ?_⟩
            · obtain ⟨h1, h2, h3⟩ := (hsp2 hau).1 hw
              exact ⟨h1, by omega, h3⟩
            · obtain ⟨h1, h2, h3⟩ := (hsp2 hau).2 hro
              exact ⟨h1, by omega, h3⟩
          · have hmu := hmem u hu' hau
            refine ⟨fun hw => ?_, fun hro => ?_⟩
            · obtain ⟨h1, h2, h3⟩ := hmu.1 hw
              exact ⟨by omega, h2, h3⟩
            · obtain ⟨h1, h2, h3⟩ := hmu.2 hro
              exact ⟨by omega, h2, h3⟩
        · intro o₁ ti o₂ tj o₃ hdec hi hj
          cases o₁ with
          | nil =>
            rw [List.nil_append] at hdec
            injection hdec with hti hdec2
            subst hti
            have htj : tj ∈ out' := by
              rw [hdec2]; exact List.mem_append.2 (Or.inr (List.mem_cons_self _ _))
            have hmj := hmem tj htj hj
            refine ⟨fun hwi hwj => ?_, fun hri hrj => ?_⟩
            · obtain ⟨h1, h2, _⟩ := (hsp2 hi).1 hwi
              obtain ⟨h3, _, _⟩ := hmj.1 hwj
              omega
            · obtain ⟨h1, h2, _⟩ := (hsp2 hi).2 hri
              obtain ⟨h3, _, _⟩ := hmj.2 hrj
              omega
          | cons a o₁' =>
            simp only [List.cons_append, List.cons.injEq] at hdec
            exact hpair o₁' ti o₂ tj o₃ hdec.2 hi hj

/-- A non-fixed read-only `SHF_ALLOC` `SHT_NOBITS` section. -/
def cexNobits : ASec := ⟨.normal, 8, 2, 0, 0, 4, 4, .noData, false, none⟩

def cexNobitsOut : ASec := ⟨.normal, 8, 2, 0x10000000, 0, 4, 4, .noData, false, some 0x10000000⟩

example : computeAddresses [cexNobits, cexNobits] =
    some ([cexNobitsOut, cexNobitsOut], 0x10000000, 0x20000000) := by decide

/-- A non-fixed writable (`SHF_WRITE ∣ SHF_ALLOC`) `SHT_PROGBITS` section. -/
def cexW : ASec := ⟨.normal, 1, 3, 0, 0, 4, 4, .noData, false, none⟩

def cexWOut1 : ASec := ⟨.normal, 1, 3, 0x20000000, 0, 4, 4, .noData, false, some 0x10000000⟩

def cexWOut2 : ASec := ⟨.normal, 1, 3, 0x20000004, 0, 4, 4, .noData, false, some 0x10000004⟩

example : computeAddresses [cexW, cexW] =
    some ([cexWOut1, cexWOut2], 0x10000008, 0x20000008) := by decide

/-- A fixed writable `SHF_ALLOC` section preset at `sh_addr = paddr =
0x10000000`: visiting it re-anchors both cursors to `0x10000004`. -/
def cexFixed : ASec := ⟨.normal, 1, 3, 0x10000000, 0, 4, 4, .noData, true, some 0x10000000⟩

/-- The second `cexW`, laid out after the fixed section re-anchored the
ram cursor backward. -/
def cexWOut3 : ASec := ⟨.normal, 1, 3, 0x10000004, 0, 4, 4, .noData, false, some 0x10000004⟩

example : computeAddresses [cexW, cexFixed, cexW] =
    some ([cexWOut1, cexFixed, cexWOut3], 0x10000008, 0x10000008) := by decide

/-- C5 counterexample, both failure modes of the claimed
`sh_addr_j >= sh_addr_i + size_i` bound.  First: two non-fixed read-only
`SHF_ALLOC` `SHT_NOBITS` sections both receive `sh_addr = 0x10000000` --
the flash cursor advances by `psize = 0` -- so the bound fails between two
non-fixed sections of agreeing flags (`size` is 4).  Second: a fixed
writable section preset at `0x10000000` between two non-fixed writable
sections re-anchors `next_ram` from `0x20000004` back to `0x10000004`
(elfmodel.py: the cursor is recomputed from the visited section's
`sh_addr`), so the second non-fixed section lands below the first and the
bound fails for that non-fixed pair as well. -/
theorem computeAddresses_claim_false :
    (computeAddresses [cexNobits, cexNobits] =
        some ([cexNobitsOut, cexNobitsOut], 0x10000000, 0x20000000) ∧
      cexNobitsOut.fixed = false ∧
      cexNobitsOut.sh_flags &&& 2 ≠ 0 ∧
      ¬ (cexNobitsOut.sh_addr + cexNobitsOut.size ≤ cexNobitsOut.sh_addr)) ∧
    (computeAddresses [cexW, cexFixed, cexW] =
        some ([cexWOut1, cexFixed, cexWOut3], 0x10000008, 0x10000008) ∧
      cexWOut1.fixed = false ∧ cexWOut3.fixed = false ∧
      cexWOut1.sh_flags &&& 2 ≠ 0 ∧ cexWOut3.sh_flags &&& 2 ≠ 0 ∧
      cexWOut1.sh_flags &&& 1 = cexWOut3.sh_flags &&& 1 ∧
      ¬ (cexWOut1.sh_addr + cexWOut1.size ≤ cexWOut3.sh_addr)) :=
  ⟨⟨by decide, rfl, by decide, by decide⟩,
    ⟨by decide, rfl, rfl, by decide, by decide, rfl, by decide⟩⟩

/-- `visit_Section` never clears the `fixed` flag: a fixed section comes
out fixed (it only re-anchors the cursors). -/
theorem caStep_fixed_of_fixed {nf nr : Nat} {s t : ASec} {nf' nr' : Nat}
    (hfx : s.fixed = true) (h : caStep nf nr s = some (t, nf', nr')) :
    t.fixed = true := by
  have hsz : ({ s with sh_size := s.size, fixed := true } : ASec).size = s.size :=
    (size_congr (s := { s with sh_size := s.size }) rfl rfl).trans (size_update s)
  by_cases halloc : s.sh_flags &&& 2 = 0
  · simp only [caStep, halloc, if_true, reduceIte] at h
    injection h with h1
    injection h1 with h2 h3
    subst h2
    exact hfx
  · by_cases hw : s.sh_flags &&& 1 = 0
    · simp only [caStep, halloc, hw, hfx, reduceIte, ne_eq, not_true_eq_false,
        Bool.false_eq_true, if_false, or_self, not_false_eq_true, if_true, true_or,
        or_true] at h
      cases hpa : s.paddr with
      | none => rw [hpa] at h; simp at h
      | some pa =>
        rw [hpa] at h
        dsimp only at h
        have hps2 : ({ s with sh_size := s.size, fixed := true, paddr := some pa } : ASec).psize = s.psize :=
          (psize_congr (s := { s with sh_size := s.size }) rfl rfl rfl).trans (psize_update s)
        rw [hps2] at h
        cases hadv : align s.psize s.sh_addralign with
        | none => rw [hadv] at h; simp at h
        | some adv =>
          rw [hadv] at h
          dsimp only at h
          simp only [reduceIte] at h
          injection h with h1
          injection h1 with h2 h3
          subst h2
          rfl
    · simp only [caStep, halloc, hw, hfx, reduceIte, ne_eq, not_false_eq_true, if_true,
        Bool.false_eq_true, if_false] at h
      rw [hsz] at h
      cases hadw : align s.size s.sh_addralign with
      | none => rw [hadw] at h; simp at h
      | some advw =>
        rw [hadw] at h
        dsimp only at h
        by_cases h8 : s.sh_type = 8
        · simp only [hw, h8, ne_eq, not_true_eq_false, or_self, if_false, reduceIte,
            Bool.false_eq_true, if_true, not_false_eq_true] at h
          injection h with h1
          injection h1 with h2 h3
          subst h2
          rfl
        · simp only [hw, h8, ne_eq, not_false_eq_true, or_true, if_true, reduceIte,
            Bool.false_eq_true, if_false, not_true_eq_false] at h
          cases hpa : s.paddr with
          | none => rw [hpa] at h; simp at h
          | some pa =>
            rw [hpa] at h
            dsimp only at h
            have hps2 : ({ s with sh_size := s.size, fixed := true, paddr := some pa } : ASec).psize = s.psize :=
              (psize_congr (s := { s with sh_size := s.size }) rfl rfl rfl).trans (psize_update s)
            rw [hps2] at h
            cases hadv : align s.psize s.sh_addralign with
            | none => rw [hadv] at h; simp at h
            | some adv =>
              rw [hadv] at h
              dsimp only at h
              simp only [reduceIte] at h
              injection h with h1
              injection h1 with h2 h3
              subst h2
              rfl

/-- A non-fixed `SHF_ALLOC` output of `visit_Section` is aligned, with no
assumption on the rest of the walk. -/
theorem caStep_align {nf nr : Nat} {s t : ASec} {nf' nr' : Nat}
    (h : caStep nf nr s = some (t, nf', nr')) (hf : t.fixed = false)
    (ha : t.sh_flags &&& 2 ≠ 0) : t.sh_addralign ∣ t.sh_addr := by
  by_cases hsf : s.fixed = true
  · have hft := caStep_fixed_of_fixed hsf h
    rw [hf] at hft
    exact Bool.noConfusion hft
  · have hsf2 : s.fixed = false := by revert hsf; cases s.fixed <;> simp
    obtain ⟨-, -, hc⟩ := caStep_spec (fun _ => hsf2) h
    by_cases hw : t.sh_flags &&& 1 = 0
    · exact ((hc ha).2 hw).2.2
    · exact ((hc ha).1 hw).2.2

/-- Every non-fixed `SHF_ALLOC` section of the `ComputeAddresses` output
is aligned, whatever mix of fixed and non-fixed sections the walk saw. -/
theorem caFold_align : ∀ (secs : List ASec) (nf nr : Nat) (out : List ASec)
    (nf' nr' : Nat), caFold nf nr secs = some (out, nf', nr') →
    ∀ t ∈ out, t.fixed = false → t.sh_flags &&& 2 ≠ 0 → t.sh_addralign ∣ t.sh_addr
  | [], nf, nr, out, nf', nr', h => by
    simp only [caFold, Option.some.injEq, Prod.mk.injEq] at h
    obtain ⟨hout, -, -⟩ := h
    subst hout
    exact fun t ht => absurd ht (List.not_mem_nil t)
  | s :: rest, nf, nr, out, nf', nr', h => by
    cases hstep : caStep nf nr s with
    | none => rw [caFold, hstep] at h; simp at h
    | some p =>
      obtain ⟨t, nf₁, nr₁⟩ := p
      rw [caFold, hstep] at h
      dsimp only [Option.bind] at h
      cases hrest : caFold nf₁ nr₁ rest with
      | none => rw [hrest] at h; simp at h
      | some q =>
        obtain ⟨out', nf₂, nr₂⟩ := q
        rw [hrest] at h
        simp only [Option.map_some', Option.some.injEq, Prod.mk.injEq] at h
        obtain ⟨hout, -, -⟩ := h
        subst hout
        intro u hu huf hua
        rcases List.mem_cons.1 hu with rfl | hu'
        · exact caStep_align hstep huf hua
        · exact caFold_align rest nf₁ nr₁ out' nf₂ nr₂ hrest u hu' huf hua


/-- C5 (amended): after the `ComputeAddresses` pass, any two non-fixed
`SHF_ALLOC` output sections `ti` before `tj` have `sh_addr` a multiple of
their `sh_addralign`; and when every `SHF_ALLOC` section of the walk is
non-fixed -- a fixed section re-anchors the cursors to its own preset
address, possibly backward, destroying any pairwise bound -- then for both
writable `tj.sh_addr >= ti.sh_addr + ti.size` and for both non-writable
(flash-resident) `tj.sh_addr >= ti.sh_addr + ti.psize`; for `SHT_NOBITS`
flash sections, which occupy no flash, the claim's `size` must be weakened
to `psize`. -/
theorem address_assignment {secs out : List ASec} {nf' nr' : Nat}
    (h : computeAddresses secs = some (out, nf', nr'))
    (o₁ o₂ o₃ : List ASec) (ti tj : ASec)
    (hdec : out = o₁ ++ ti :: o₂ ++ tj :: o₃)
    (hfi : ti.fixed = false) (hfj : tj.fixed = false)
    (hai : ti.sh_flags &&& 2 ≠ 0) (haj : tj.sh_flags &&& 2 ≠ 0) :
    ti.sh_addralign ∣ ti.sh_addr ∧ tj.sh_addralign ∣ tj.sh_addr ∧
    ((∀ s ∈ secs, s.sh_flags &&& 2 ≠ 0 → s.fixed = false) →
      (ti.sh_flags &&& 1 ≠ 0 → tj.sh_flags &&& 1 ≠ 0 →
        ti.sh_addr + ti.size ≤ tj.sh_addr) ∧
      (ti.sh_flags &&& 1 = 0 → tj.sh_flags &&& 1 = 0 →
        ti.sh_addr + ti.psize ≤ tj.sh_addr)) := by
  rw [computeAddresses] at h
  have hti : ti ∈ out := by rw [hdec]; simp
  have htj : tj ∈ out := by rw [hdec]; simp
  refine ⟨caFold_align secs 0x10000000 0x20000000 out nf' nr' h ti hti hfi hai,
    caFold_align secs 0x10000000 0x20000000 out nf' nr' h tj htj hfj haj, ?_⟩
  intro hfix
  obtain ⟨-, -, -, hpair⟩ := caFold_pair secs 0x10000000 0x20000000 out nf' nr' hfix h
  exact hpair o₁ ti o₂ tj o₃ hdec hai haj

/-- Witness: two writable non-fixed sections laid out at 0x20000000 and
0x20000004. -/
theorem address_assignment_witness :
    cexWOut1.sh_addralign ∣ cexWOut1.sh_addr ∧
    cexWOut2.sh_addralign ∣ cexWOut2.sh_addr ∧
    ((∀ s ∈ [cexW, cexW], s.sh_flags &&& 2 ≠ 0 → s.fixed = false) →
      (cexWOut1.sh_flags &&& 1 ≠ 0 → cexWOut2.sh_flags &&& 1 ≠ 0 →
        cexWOut1.sh_addr + cexWOut1.size ≤ cexWOut2.sh_addr) ∧
      (cexWOut1.sh_flags &&& 1 = 0 → cexWOut2.sh_flags &&& 1 = 0 →
        cexWOut1.sh_addr + cexWOut1.psize ≤ cexWOut2.sh_addr)) :=
  @address_assignment [cexW, cexW] [cexWOut1, cexWOut2] 0x10000008 0x20000008
    (by decide) [] [] [] cexWOut1 cexWOut2 rfl rfl rfl (by decide) (by decide)


/-- One section of `ComputeOffsets.visit` dispatch (elfmodel.py 570-579):
`visit_EhdrSection` pins `sh_offset` to 0, `visit_PhdrsSection` to
`e_phoff`, and `visit_Section` skips `SHT_NULL` sections and otherwise
aligns the running offset, stores it, and advances by `psize`. -/
def coStep (phoff off : Nat) (s : ASec) : Option (ASec × Nat) :=
  match s.kind with
  | .ehdrP => some ({ s with sh_offset := 0 }, off)
  | .phdrsP => some ({ s with sh_offset := phoff }, off)
  | .normal =>
    if s.sh_type = 0 then some (s, off) else
    match align off s.sh_addralign with
    | none => none
    | some o => some ({ s with sh_offset := o }, o + s.psize)

/-- The section walk of `ComputeOffsets`. -/
def coFold (phoff : Nat) : Nat → List ASec → Option (List ASec × Nat)
  | off, [] => some ([], off)
  | off, s :: rest =>
    (coStep phoff off s).bind fun p =>
    (coFold phoff p.2 rest).map fun q => (p.1 :: q.1, q.2)

/-- `ComputeOffsets(sh_align=4096).visit_Elf` (elfmodel.py 560-568):
offset starts at `e_ehsize`, `e_phoff` is the offset aligned to
`alignment(Phdr) = 4`, the program-header table is skipped, the offset is
aligned to `sh_align` before the section walk, and finally `e_shoff` is
the offset aligned to `alignment(Shdr) = 4`.  Returns the rewritten
sections, `e_phoff`, `e_shoff` and the final offset. -/
def computeOffsets (ehsize phnum phentsize shnum shentsize : Nat)
    (secs : List ASec) : Option (List ASec × Nat × Nat × Nat) :=
  match align ehsize 4 with
  | none => none
  | some phoff =>
    match align (phoff + phnum * phentsize) 4096 with
    | none => none
    | some off2 =>
      (coFold phoff off2 secs).bind fun p =>
      match align p.2 4 with
      | none => none
      | some shoff => some (p.1, phoff, shoff, shoff + shnum * shentsize)

@[simp] theorem size_offset (s : ASec) (x : Nat) :
    ({ s with sh_offset := x } : ASec).size = s.size := rfl

@[simp] theorem psize_offset (s : ASec) (x : Nat) :
    ({ s with sh_offset := x } : ASec).psize = s.psize := rfl

/-- Single-section guarantees of the `ComputeOffsets` dispatch. -/
theorem coStep_spec {phoff off : Nat} {s t : ASec} {off' : Nat}
    (h : coStep phoff off s = some (t, off')) :
    t.kind = s.kind ∧ t.sh_type = s.sh_type ∧ t.sh_addralign = s.sh_addralign ∧
    t.psize = s.psize ∧ off ≤ off' ∧
    (s.kind = .ehdrP → t.sh_offset = 0) ∧
    (s.kind = .phdrsP → t.sh_offset = phoff) ∧
    (s.kind = .normal → s.sh_type ≠ 0 →
      off ≤ t.sh_offset ∧ t.sh_offset + t.psize ≤ off' ∧ t.sh_addralign ∣ t.sh_offset) := by
  cases hk : s.kind with
  | ehdrP =>
    simp only [coStep, hk, Option.some.injEq, Prod.mk.injEq] at h
    obtain ⟨ht, hoff⟩ := h
    subst ht hoff
    exact ⟨rfl, rfl, rfl, psize_offset s 0, le_refl _, fun _ => rfl,
      fun hc => by simp [hk] at hc,
      fun hc => by simp [hk] at hc⟩
  | phdrsP =>
    simp only [coStep, hk, Option.some.injEq, Prod.mk.injEq] at h
    obtain ⟨ht, hoff⟩ := h
    subst ht hoff
    exact ⟨rfl, rfl, rfl, psize_offset s phoff, le_refl _,
      fun hc => by simp [hk] at hc,
      fun _ => rfl,
      fun hc => by simp [hk] at hc⟩
  | normal =>
    simp only [coStep, hk] at h
    by_cases h0 : s.sh_type = 0
    · rw [if_pos h0] at h
      simp only [Option.some.injEq, Prod.mk.injEq] at h
      obtain ⟨ht, hoff⟩ := h
      subst ht hoff
      exact ⟨by simp [hk], rfl, rfl, rfl, le_refl _,
        fun hc => by simp [hk] at hc,
        fun hc => by simp [hk] at hc,
        fun _ hne => absurd h0 hne⟩
    · rw [if_neg h0] at h
      cases hal : align off s.sh_addralign with
      | none => rw [hal] at h; simp at h
      | some o =>
        rw [hal] at h
        dsimp only at h
        simp only [Option.some.injEq, Prod.mk.injEq] at h
        obtain ⟨ht, hoff⟩ := h
        subst ht hoff
        obtain ⟨hd, hle, _⟩ := align_spec hal
        refine ⟨rfl, rfl, rfl, psize_offset s o, ?_, 
          fun hc => by simp [hk] at hc,
          fun hc => by simp [hk] at hc,
          fun _ _ => ⟨hle, ?_, hd⟩⟩
        · show off ≤ o + s.psize
          omega
        · show o + ({ s with sh_offset := o } : ASec).psize ≤ o + s.psize
          rw [psize_offset]

/-- Fold invariant of the `ComputeOffsets` section walk: pseudo-section
offsets, per-section bounds, and pairwise interval separation. -/
theorem coFold_pair (ehsize table : Nat) : ∀ (secs : List ASec) (phoff off : Nat)
    (out : List ASec) (off' : Nat),
    ehsize ≤ phoff → phoff + table ≤ off →
    (∀ s ∈ secs, s.kind = .ehdrP → s.psize ≤ ehsize) →
    (∀ s ∈ secs, s.kind = .phdrsP → s.psize ≤ table ∧ s.sh_addralign ∣ phoff) →
    coFold phoff off secs = some (out, off') →
    off ≤ off' ∧
    (∀ t ∈ out,
      (t.kind = .ehdrP → t.sh_offset = 0 ∧ t.psize ≤ ehsize ∧ t.sh_addralign ∣ t.sh_offset) ∧
      (t.kind = .phdrsP → t.sh_offset = phoff ∧ t.psize ≤ table ∧ t.sh_addralign ∣ t.sh_offset) ∧
      (t.kind = .normal → t.sh_type ≠ 0 →
        off ≤ t.sh_offset ∧ t.sh_offset + t.psize ≤ off' ∧ t.sh_addralign ∣ t.sh_offset)) ∧
    (∀ (o₁ : List ASec) (ti : ASec) (o₂ : List ASec) (tj : ASec) (o₃ : List ASec),
      out = o₁ ++ ti :: o₂ ++ tj :: o₃ →
      ¬(ti.kind = .ehdrP ∧ tj.kind = .ehdrP) →
      ¬(ti.kind = .phdrsP ∧ tj.kind = .phdrsP) →
      (ti.kind = .normal → ti.sh_type ≠ 0) →
      (tj.kind = .normal → tj.sh_type ≠ 0) →
      ti.sh_offset + ti.psize ≤ tj.sh_offset ∨ tj.sh_offset + tj.psize ≤ ti.sh_offset)
  | [], phoff, off, out, off', hep, hpo, heh, hph, h => by
    simp only [coFold, Option.some.injEq, Prod.mk.injEq] at h
    obtain ⟨hout, hoff⟩ := h
    subst hout hoff
    refine ⟨le_refl _, fun t ht => absurd ht (List.not_mem_nil t), ?_⟩
    intro o₁ ti o₂ tj o₃ hdec
    cases o₁ <;> simp at hdec
  | s :: rest, phoff, off, out, off', hep, hpo, heh, hph, h => by
    cases hstep : coStep phoff off s with
    | none => rw [coFold, hstep] at h; simp at h
    | some p =>
      obtain ⟨t, off₁⟩ := p
      rw [coFold, hstep] at h
      dsimp only [Option.bind] at h
      cases hrest : coFold phoff off₁ rest with
      | none => rw [hrest] at h; simp at h
      | some q =>
        obtain ⟨out', off₂⟩ := q
        rw [hrest] at h
        simp only [Option.map_some', Option.some.injEq, Prod.mk.injEq] at h
        obtain ⟨hout, hoff⟩ := h
        subst hout hoff
        obtain ⟨hkind, htype, halign, hpsize, hoff1, hehd, hphd, hnor⟩ := coStep_spec hstep
        have hih := coFold_pair ehsize table rest phoff off₁ out' off₂ hep (by omega)
          (fun x hx => heh x (List.mem_cons_of_mem s hx))
          (fun x hx => hph x (List.mem_cons_of_mem s hx)) hrest
        obtain ⟨hoff2, hmem, hpair⟩ := hih
        have hheadE : t.kind = .ehdrP →
            t.sh_offset = 0 ∧ t.psize ≤ ehsize ∧ t.sh_addralign ∣ t.sh_offset := by
          intro hk
          have hsk : s.kind = .ehdrP := by rw [← hkind]; exact hk
          have h0 := hehd hsk
          refine ⟨h0, ?_, by rw [h0]; exact dvd_zero _⟩
          rw [hpsize]
          exact heh s (List.mem_cons_self s rest) hsk
        have hheadP : t.kind = .phdrsP →
            t.sh_offset = phoff ∧ t.psize ≤ table ∧ t.sh_addralign ∣ t.sh_offset := by
          intro hk
          have hsk : s.kind = .phdrsP := by rw [← hkind]; exact hk
          obtain ⟨hp1, hp2⟩ := hph s (List.mem_cons_self s rest) hsk
          refine ⟨hphd hsk, ?_, ?_⟩
          · rw [hpsize]; exact hp1
          · rw [hphd hsk, halign]; exact hp2
        have hheadN : t.kind = .normal → t.sh_type ≠ 0 →
            off ≤ t.sh_offset ∧ t.sh_offset + t.psize ≤ off₁ ∧ t.sh_addralign ∣ t.sh_offset := by
          intro hk h0
          exact hnor (by rw [← hkind]; exact hk) (by rw [← htype]; exact h0)
        refine ⟨by omega, ?_, ?_⟩
        · intro u hu
          rcases List.mem_cons.1 hu with rfl | hu'
          · refine ⟨hheadE, hheadP, fun hk h0 => ?_⟩
            obtain ⟨h1, h2, h3⟩ := hheadN hk h0
            exact ⟨h1, by omega, h3⟩
          · have hmu := hmem u hu'
            refine ⟨hmu.1, hmu.2.1, fun hk h0 => ?_⟩
            obtain ⟨h1, h2, h3⟩ := hmu.2.2 hk h0
            exact ⟨by omega, h2, h3⟩
        · intro o₁ ti o₂ tj o₃ hdec hne hnp hti0 htj0
          cases o₁ with
          | nil =>
            rw [List.nil_append] at hdec
            injection hdec with hti hdec2
            subst hti
            have htjm : tj ∈ out' := by rw [hdec2]; simp
            have hmj := hmem tj htjm
            cases hkti : t.kind with
            | ehdrP =>
              obtain ⟨he0, heP, _⟩ := hheadE hkti
              cases hktj : tj.kind with
              | ehdrP => exact absurd ⟨hkti, hktj⟩ hne
              | phdrsP =>
                obtain ⟨hj0, _, _⟩ := hmj.2.1 hktj
                left
                rw [he0, hj0]
                omega
              | normal =>
                obtain ⟨hj1, _, _⟩ := hmj.2.2 hktj (htj0 hktj)
                left
                rw [he0]
                omega
            | phdrsP =>
              obtain ⟨hp0, hpP, _⟩ := hheadP hkti
              cases hktj : tj.kind with
              | phdrsP => exact absurd ⟨hkti, hktj⟩ hnp
              | ehdrP =>
                obtain ⟨hj0, hjP, _⟩ := hmj.1 hktj
                right
                rw [hp0, hj0]
                omega
              | normal =>
                obtain ⟨hj1, _, _⟩ := hmj.2.2 hktj (htj0 hktj)
                left
                rw [hp0]
                omega
            | normal =>
              obtain ⟨hi1, hi2, _⟩ := hheadN hkti (hti0 hkti)
              cases hktj : tj.kind with
              | ehdrP =>
                obtain ⟨hj0, hjP, _⟩ := hmj.1 hktj
                right
                rw [hj0]
                omega
              | phdrsP =>
                obtain ⟨hj0, hjP, _⟩ := hmj.2.1 hktj
                right
                rw [hj0]
                omega
              | normal =>
                obtain ⟨hj1, _, _⟩ := hmj.2.2 hktj (htj0 hktj)
                left
                omega
          | cons a o₁x =>
            rw [List.cons_append] at hdec
            injection hdec with h5 hdec2
            exact hpair o₁x ti o₂ tj o₃ hdec2 hne hnp hti0 htj0

/-- A live `SHT_NULL` section carrying a stale odd `sh_offset` and
`sh_addralign` 2. -/
def cexNull : ASec := ⟨.normal, 0, 0, 0, 1, 4, 2, .noData, false, none⟩

example : computeOffsets 52 1 32 1 40 [cexNull] =
    some ([cexNull], 52, 4096, 4136) := by decide

/-- C6 counterexample: `visit_Section` skips `SHT_NULL` sections entirely,
so a live `SHT_NULL` section keeps a stale `sh_offset` (here 1) that is not
a multiple of its `sh_addralign` (here 2); the claimed alignment of every
section's offset fails. -/
theorem computeOffsets_claim_false :
    computeOffsets 52 1 32 1 40 [cexNull] = some ([cexNull], 52, 4096, 4136) ∧
    ¬ (cexNull.sh_addralign ∣ cexNull.sh_offset) :=
  ⟨by decide, by decide⟩

/-- C6 (amended): after the `ComputeOffsets` pass, provided the `.ehdr`
pseudo-section fits in `e_ehsize`, the `.phdrs` pseudo-section fits in the
program-header table and its alignment divides `alignment(Phdr) = 4`, the
two sections compared are not both the `.ehdr` (resp. both the `.phdrs`)
pseudo-section, and neither is `SHT_NULL` (which the pass skips, leaving a
stale offset): the file intervals `[sh_offset, sh_offset + psize)` of any
two sections of the output are disjoint, every such section's `sh_offset`
is a multiple of its `sh_addralign`, and the pseudo-section offsets are 0
and `e_phoff`. -/
theorem file_layout {ehsize phnum phentsize shnum shentsize : Nat}
    {secs out : List ASec} {phoff shoff fin : Nat}
    (heh : ∀ s ∈ secs, s.kind = .ehdrP → s.psize ≤ ehsize)
    (hph : ∀ s ∈ secs, s.kind = .phdrsP →
      s.psize ≤ phnum * phentsize ∧ s.sh_addralign ∣ 4)
    (h : computeOffsets ehsize phnum phentsize shnum shentsize secs =
      some (out, phoff, shoff, fin))
    (o₁ o₂ o₃ : List ASec) (ti tj : ASec)
    (hdec : out = o₁ ++ ti :: o₂ ++ tj :: o₃)
    (hne : ¬(ti.kind = .ehdrP ∧ tj.kind = .ehdrP))
    (hnp : ¬(ti.kind = .phdrsP ∧ tj.kind = .phdrsP))
    (hti0 : ti.kind = .normal → ti.sh_type ≠ 0)
    (htj0 : tj.kind = .normal → tj.sh_type ≠ 0) :
    ti.sh_addralign ∣ ti.sh_offset ∧ tj.sh_addralign ∣ tj.sh_offset ∧
    (ti.kind = .ehdrP → ti.sh_offset = 0) ∧
    (ti.kind = .phdrsP → ti.sh_offset = phoff) ∧
    (ti.sh_offset + ti.psize ≤ tj.sh_offset ∨
      tj.sh_offset + tj.psize ≤ ti.sh_offset) := by
  rw [computeOffsets] at h
  cases hAl1 : align ehsize 4 with
  | none => rw [hAl1] at h; simp at h
  | some ph =>
    rw [hAl1] at h
    dsimp only at h
    cases hAl2 : align (ph + phnum * phentsize) 4096 with
    | none => rw [hAl2] at h; simp at h
    | some off2 =>
      rw [hAl2] at h
      dsimp only at h
      cases hcf : coFold ph off2 secs with
      | none => rw [hcf] at h; simp at h
      | some p =>
        obtain ⟨out0, offF⟩ := p
        rw [hcf] at h
        dsimp only [Option.bind] at h
        cases hAl3 : align offF 4 with
        | none => rw [hAl3] at h; simp at h
        | some sh =>
          rw [hAl3] at h
          dsimp only at h
          simp only [Option.some.injEq, Prod.mk.injEq] at h
          obtain ⟨hout, hph2, hsh, hfin⟩ := h
          subst hout hph2 hsh hfin
          obtain ⟨h4d, hehle, _⟩ := align_spec hAl1
          obtain ⟨_, hoffle, _⟩ := align_spec hAl2
          have hinv := coFold_pair ehsize (phnum * phentsize) secs ph off2 out0 offF
            hehle (by omega) heh
            (fun x hx hk => ⟨(hph x hx hk).1, dvd_trans (hph x hx hk).2 h4d⟩) hcf
          obtain ⟨-, hmem, hpair⟩ := hinv
          have hti : ti ∈ out0 := by rw [hdec]; simp
          have htj : tj ∈ out0 := by rw [hdec]; simp
          have hmi := hmem ti hti
          have hmj := hmem tj htj
          have dvdi : ti.sh_addralign ∣ ti.sh_offset := by
            cases hk : ti.kind with
            | ehdrP => exact (hmi.1 hk).2.2
            | phdrsP => exact (hmi.2.1 hk).2.2
            | normal => exact (hmi.2.2 hk (hti0 hk)).2.2
          have dvdj : tj.sh_addralign ∣ tj.sh_offset := by
            cases hk : tj.kind with
            | ehdrP => exact (hmj.1 hk).2.2
            | phdrsP => exact (hmj.2.1 hk).2.2
            | normal => exact (hmj.2.2 hk (htj0 hk)).2.2
          exact ⟨dvdi, dvdj, fun hk => (hmi.1 hk).1, fun hk => (hmi.2.1 hk).1,
            hpair o₁ ti o₂ tj o₃ hdec hne hnp hti0 htj0⟩

def cexEhdr : ASec := ⟨.ehdrP, 0, 0, 0, 7, 52, 4, .noData, false, none⟩

def cexPhdrs : ASec := ⟨.phdrsP, 0, 0, 0, 7, 32, 4, .noData, false, none⟩

def cexProg : ASec := ⟨.normal, 1, 0, 0, 7, 8, 4, .noData, false, none⟩

def cexEhdrOut : ASec := ⟨.ehdrP, 0, 0, 0, 0, 52, 4, .noData, false, none⟩

def cexPhdrsOut : ASec := ⟨.phdrsP, 0, 0, 0, 52, 32, 4, .noData, false, none⟩

def cexProgOut : ASec := ⟨.normal, 1, 0, 0, 4096, 8, 4, .noData, false, none⟩

example : computeOffsets 52 1 32 1 40 [cexEhdr, cexPhdrs, cexProg] =
    some ([cexEhdrOut, cexPhdrsOut, cexProgOut], 52, 4104, 4144) := by decide

/-- Witness: ehdr, phdrs and one ordinary section laid out at 0, 52, 4096. -/
theorem file_layout_witness :
    cexEhdrOut.sh_addralign ∣ cexEhdrOut.sh_offset ∧
    cexProgOut.sh_addralign ∣ cexProgOut.sh_offset ∧
    (cexEhdrOut.kind = .ehdrP → cexEhdrOut.sh_offset = 0) ∧
    (cexEhdrOut.kind = .phdrsP → cexEhdrOut.sh_offset = 52) ∧
    (cexEhdrOut.sh_offset + cexEhdrOut.psize ≤ cexProgOut.sh_offset ∨
      cexProgOut.sh_offset + cexProgOut.psize ≤ cexEhdrOut.sh_offset) :=
  @file_layout 52 1 32 1 40 [cexEhdr, cexPhdrs, cexProg]
    [cexEhdrOut, cexPhdrsOut, cexProgOut] 52 4104 4144
    (by decide) (by decide) (by decide)
    [] [cexPhdrsOut] [] cexEhdrOut cexProgOut rfl
    (by decide) (by decide) (by decide) (by decide)

/-- If any reachable ordinary non-`SHT_NULL` section has an alignment that
fails the `align` assert, the section walk aborts. -/
theorem coFold_none (phoff : Nat) : ∀ (secs : List ASec) (off : Nat) {s : ASec},
    s ∈ secs → s.kind = .normal → s.sh_type ≠ 0 →
    ¬(0 < s.sh_addralign ∧ s.sh_addralign &&& (s.sh_addralign - 1) = 0) →
    coFold phoff off secs = none
  | [], off, s, hs, _, _, _ => absurd hs (List.not_mem_nil s)
  | a :: rest, off, s, hs, hk, h0, hbad => by
    rcases List.mem_cons.1 hs with rfl | hmem
    · rw [coFold]
      have hnone : coStep phoff off s = none := by
        simp only [coStep, hk]
        rw [if_neg h0]
        have : align off s.sh_addralign = none := by
          rw [align, if_neg hbad]
        rw [this]
      rw [hnone]
      rfl
    · rw [coFold]
      cases hst : coStep phoff off a with
      | none => rfl
      | some p =>
        dsimp only [Option.bind]
        rw [coFold_none phoff rest p.2 hmem hk h0 hbad]
        rfl

/-- C10: `align` asserts a positive power-of-two alignment, and
`ComputeOffsets` feeds it `sh_addralign` for every ordinary section that is
not `SHT_NULL`; an input holding such a section with `sh_addralign` zero or
not a power of two makes the pass abort instead of laying the file out. -/
theorem align_assert_abort {ehsize phnum phentsize shnum shentsize : Nat}
    {secs : List ASec} {s : ASec} (hs : s ∈ secs) (hk : s.kind = .normal)
    (h0 : s.sh_type ≠ 0)
    (hbad : ¬(0 < s.sh_addralign ∧ s.sh_addralign &&& (s.sh_addralign - 1) = 0)) :
    computeOffsets ehsize phnum phentsize shnum shentsize secs = none := by
  rw [computeOffsets]
  cases hAl1 : align ehsize 4 with
  | none => rfl
  | some ph =>
    dsimp only
    cases hAl2 : align (ph + phnum * phentsize) 4096 with
    | none => rfl
    | some off2 =>
      dsimp only
      rw [coFold_none ph secs off2 hs hk h0 hbad]
      rfl

/-- An ordinary `SHT_PROGBITS` section with `sh_addralign = 3`. -/
def cexBadAlign : ASec := ⟨.normal, 1, 0, 0, 0, 4, 3, .noData, false, none⟩

/-- Witness: a single section with `sh_addralign = 3` aborts the pass. -/
theorem align_assert_abort_witness :
    computeOffsets 52 1 32 1 40 [cexBadAlign] = none :=
  align_assert_abort (List.mem_cons_self cexBadAlign []) rfl (by decide) (by decide)


/-- The `SHT_REL` outer loop (mkextmod.py 170): the `.rela.dyn` entries
contributed by each relocation section, concatenated in order. -/
def convertSections : List MRelSec → Except String (List MRela)
  | [] => .ok []
  | s :: ss => do
    let a ← convertSection s
    let b ← convertSections ss
    return a ++ b

/-- The `.dynamic` tail of the script (mkextmod.py 239-283) as the
sequence of `d_tag` values appended to `dynamic.dyns`: `DT_HASH`,
`DT_STRTAB`, `DT_SYMTAB`, then `DT_RELA`/`DT_RELAENT`/`DT_RELASZ` when
`.rela.dyn` is non-empty, `DT_STRSZ`, `DT_SYMENT`, `DT_SONAME`, then
`DT_REL`/`DT_RELENT`/`DT_RELSZ` when `.rel.dyn` is non-empty, `DT_FLAGS`,
optional `DT_INIT`/`DT_FINI`, one tag per `--entry` option whose symbol is
found (the tag is parsed from the command line), and the terminating null
entry. -/
def buildDyns (nRela nRel : Nat) (hasInit hasFini : Bool)
    (userEntries : List (Nat × Bool)) : List Nat :=
  [4, 5, 6] ++
  (if 0 < nRela then [7, 9, 8] else []) ++
  [10, 11, 14] ++
  (if 0 < nRel then [17, 19, 18] else []) ++
  [30] ++
  (if hasInit then [12] else []) ++
  (if hasFini then [13] else []) ++
  (userEntries.filterMap fun te => if te.2 then some te.1 else none) ++
  [0]

/-- The relocation-producing skeleton of a full mkextmod run: `.rela.dyn`
collects the veneer loop's entries (mkextmod.py 93-129) followed by the
conversion loop's (170-236); `.rel.dyn` is built with an empty relocation
list (line 60) and no statement ever appends to it; the `.dynamic` tags
follow. -/
def runMkextmod (symbols : List MSym) (veneer_symbol_offset : Nat)
    (relSecs : List MRelSec) (hasInit hasFini : Bool)
    (userEntries : List (Nat × Bool)) :
    Except String (List MRela × List MRel × List Nat) := do
  let veneers ← veneerSyms symbols veneer_symbol_offset symbols
  let convs ← convertSections relSecs
  let dynrela := veneers ++ convs
  let dynrel : List MRel := []
  return (dynrela, dynrel,
    buildDyns dynrela.length dynrel.length hasInit hasFini userEntries)

/-- A tag of at least 15 other than `DT_FLAGS = 30` in the built `.dynamic`
of a run with empty `.rel.dyn` can only come from an `--entry` option. -/
theorem mem_buildDyns_user {x : Nat} {nRela : Nat} {hi hf : Bool}
    {u : List (Nat × Bool)} (hmem : x ∈ buildDyns nRela 0 hi hf u)
    (hbig : 15 ≤ x) (hne : x ≠ 30) : ∃ te ∈ u, te.2 = true ∧ te.1 = x := by
  rw [buildDyns, if_neg (lt_irrefl 0)] at hmem
  rcases List.mem_append.1 hmem with hmem | h
  case inr => simp at h; omega
  rcases List.mem_append.1 hmem with hmem | h
  case inr =>
    rcases List.mem_filterMap.1 h with ⟨a, ha, hfa⟩
    by_cases hb : a.2 = true
    · rw [if_pos hb] at hfa
      exact ⟨a, ha, hb, by injection hfa⟩
    · rw [if_neg hb] at hfa
      exact absurd hfa (by simp)
  rcases List.mem_append.1 hmem with hmem | h
  case inr =>
    cases hf
    · simp at h
    · simp at h; omega
  rcases List.mem_append.1 hmem with hmem | h
  case inr =>
    cases hi
    · simp at h
    · simp at h; omega
  rcases List.mem_append.1 hmem with hmem | h
  case inr => simp at h; exact absurd h hne
  rcases List.mem_append.1 hmem with hmem | h
  case inr => simp at h
  rcases List.mem_append.1 hmem with hmem | h
  case inr => simp at h; rcases h with rfl | rfl | rfl <;> omega
  rcases List.mem_append.1 hmem with h | h
  · simp at h; rcases h with rfl | rfl | rfl <;> omega
  · split at h
    · simp at h; rcases h with rfl | rfl | rfl <;> omega
    · simp at h

/-- C9 counterexample: an `--entry 11 <symbol>` option whose symbol is
found parses tag `int("11", 16) = 17 = DT_REL` and appends it to
`.dynamic`, so `DT_REL` can appear even though `.rel.dyn` stays empty. -/
theorem rel_dyn_claim_false :
    runMkextmod [] 12 [] false false [(17, true)] =
      .ok ([], [], [4, 5, 6, 10, 11, 14, 30, 17, 0]) ∧
    17 ∈ [4, 5, 6, 10, 11, 14, 30, 17, 0] := ⟨rfl, by decide⟩

/-- C9 (amended): on every successful run of mkextmod no relocation is
appended to the `.rel.dyn` `RelSection` -- the conversion loop and the
veneer synthesis append only to `.rela.dyn` -- so `.rel.dyn` has zero
entries and size `0 * sizeof(Rel) = 0`, and, provided no `--entry` option
supplies tag 0x11, 0x12 or 0x13, the `DT_REL`, `DT_RELSZ` and `DT_RELENT`
dynamic tags never appear in `.dynamic`. -/
theorem rel_dyn_empty {symbols : List MSym} {vso : Nat} {relSecs : List MRelSec}
    {hasInit hasFini : Bool} {userEntries : List (Nat × Bool)}
    {rela : List MRela} {rel : List MRel} {tags : List Nat}
    (huser : ∀ te ∈ userEntries, te.1 ≠ 17 ∧ te.1 ≠ 18 ∧ te.1 ≠ 19)
    (h : runMkextmod symbols vso relSecs hasInit hasFini userEntries =
      .ok (rela, rel, tags)) :
    rel = [] ∧ rel.length * 8 = 0 ∧ 17 ∉ tags ∧ 18 ∉ tags ∧ 19 ∉ tags := by
  cases hv : veneerSyms symbols vso symbols with
  | error e =>
    have hrun : runMkextmod symbols vso relSecs hasInit hasFini userEntries =
        .error e := by
      rw [runMkextmod, hv]
      rfl
    rw [hrun] at h
    exact Except.noConfusion h
  | ok veneers =>
    cases hc : convertSections relSecs with
    | error e =>
      have hrun : runMkextmod symbols vso relSecs hasInit hasFini userEntries =
          .error e := by
        rw [runMkextmod, hv, hc]
        rfl
      rw [hrun] at h
      exact Except.noConfusion h
    | ok convs =>
      have hrun : runMkextmod symbols vso relSecs hasInit hasFini userEntries =
          .ok (veneers ++ convs, ([] : List MRel),
            buildDyns (veneers ++ convs).length 0 hasInit hasFini userEntries) := by
        rw [runMkextmod, hv, hc]
        rfl
      rw [hrun] at h
      simp only [Except.ok.injEq, Prod.mk.injEq] at h
      obtain ⟨h1, h2, h3⟩ := h
      subst h1 h2 h3
      refine ⟨rfl, rfl, ?_, ?_, ?_⟩
      · intro hmem
        obtain ⟨te, hte, hb, ht⟩ := mem_buildDyns_user hmem (by omega) (by omega)
        exact (huser te hte).1 ht
      · intro hmem
        obtain ⟨te, hte, hb, ht⟩ := mem_buildDyns_user hmem (by omega) (by omega)
        exact (huser te hte).2.1 ht
      · intro hmem
        obtain ⟨te, hte, hb, ht⟩ := mem_buildDyns_user hmem (by omega) (by omega)
        exact (huser te hte).2.2 ht

/-- Witness: a run with one `--entry` option of tag 0x19 = 25. -/
theorem rel_dyn_empty_witness :
    ([] : List MRel) = [] ∧ ([] : List MRel).length * 8 = 0 ∧
    17 ∉ [4, 5, 6, 10, 11, 14, 30, 25, 0] ∧
    18 ∉ [4, 5, 6, 10, 11, 14, 30, 25, 0] ∧
    19 ∉ [4, 5, 6, 10, 11, 14, 30, 25, 0] :=
  @rel_dyn_empty [] 12 [] false false [(25, true)] [] []
    [4, 5, 6, 10, 11, 14, 30, 25, 0] (by decide) rfl


/-- An entry of an `EntrySection` (a `Symbol` or a `Relocation`): `ref` is
the node id of `symbol.section` resp. `rel.symbol`, if any. -/
structure PEnt where
  id : Nat
  ref : Option Nat
deriving DecidableEq, Repr

/-- A section node: `link`/`info` hold referenced section ids; `entries`
is `some` exactly for `EntrySection`s. -/
structure PSec where
  id : Nat
  link : Option Nat
  info : Option Nat
  entries : Option (List PEnt)
deriving DecidableEq, Repr

/-- A segment node with its member section ids. -/
structure PSeg where
  id : Nat
  secs : List Nat
deriving DecidableEq, Repr

/-- The graph walked by `PurgeDeleted`: the `Elf`'s section and segment
lists plus the monotone set of deleted node ids (`Node.deleted` flags:
objects stay deleted once deleted, even after removal from the lists). -/
structure PElf where
  sections : List PSec
  segments : List PSeg
  dead : List Nat
deriving DecidableEq, Repr

/-- `if node and node.deleted` on an optional reference. -/
def optDead (dead : List Nat) : Option Nat → Bool
  | some i => decide (i ∈ dead)
  | none => false

/-- Visiting one entry (`visit_Symbol` / `visit_Relocation`, elfmodel.py
430-440): an entry whose reference is deleted is deleted; deleted entries
are skipped by `visit`. -/
def entVisit (dead : List Nat) (x : PEnt) : List Nat × Bool :=
  if x.id ∈ dead then (dead, false)
  else if optDead dead x.ref then (x.id :: dead, true)
  else (dead, false)

/-- The entry list walk of `visit(section._entries)`. -/
def entsVisit : List Nat → List PEnt → List Nat × Bool
  | dead, [] => (dead, false)
  | dead, x :: xs =>
    let p := entVisit dead x
    let q := entsVisit p.1 xs
    (q.1, p.2 || q.2)

/-- Visiting one section (`visit_Section` / `visit_EntrySection`,
elfmodel.py 422-428): a live section with a deleted `link` or `info` is
deleted -- and `EntrySection.delete` (elfmodel.py 121-124) then marks every
entry of the dying section deleted as well; an `EntrySection` additionally
visits its live entries and then filters out the deleted ones. -/
def secVisit (dead : List Nat) (s : PSec) : PSec × List Nat × Bool :=
  if s.id ∈ dead then (s, dead, false) else
  let die := optDead dead s.link || optDead dead s.info
  match s.entries with
  | none => (s, if die then s.id :: dead else dead, die)
  | some es =>
    let dead1 := if die then es.foldl (fun d x => x.id :: d) (s.id :: dead) else dead
    let q := entsVisit dead1 es
    ({ s with entries := some (es.filter fun x => decide (x.id ∉ q.1)) },
      q.1, die || q.2)

/-- The section list walk of one `PurgeDeleted` iteration. -/
def secsVisit : List Nat → List PSec → List PSec × List Nat × Bool
  | dead, [] => ([], dead, false)
  | dead, s :: ss =>
    let p := secVisit dead s
    let q := secsVisit p.2.1 ss
    (p.1 :: q.1, q.2.1, p.2.2 || q.2.2)

/-- Visiting one segment (`visit_Segment`, elfmodel.py 417-420): deleted
member sections are filtered out and a segment left with no sections is
deleted. -/
def segVisit (dead : List Nat) (p : PSeg) : PSeg × List Nat × Bool :=
  if p.id ∈ dead then (p, dead, false) else
  let secs1 := p.secs.filter fun i => decide (i ∉ dead)
  if secs1 = [] then ({ p with secs := secs1 }, p.id :: dead, true)
  else ({ p with secs := secs1 }, dead, false)

/-- The segment list walk of one `PurgeDeleted` iteration. -/
def segsVisit : List Nat → List PSeg → List PSeg × List Nat × Bool
  | dead, [] => ([], dead, false)
  | dead, p :: ps =>
    let a := segVisit dead p
    let b := segsVisit a.2.1 ps
    (a.1 :: b.1, b.2.1, a.2.2 || b.2.2)

/-- One iteration of `PurgeDeleted.visit_Elf`'s while-loop (elfmodel.py
411-415): visit all live sections, then all live segments, then drop the
deleted segments and sections from the `Elf`'s lists; the Bool is the
`again` flag. -/
def purgeStep (e : PElf) : PElf × Bool :=
  let a := secsVisit e.dead e.sections
  let b := segsVisit a.2.1 e.segments
  ({ sections := a.1.filter fun s => decide (s.id ∉ b.2.1),
     segments := b.1.filter fun p => decide (p.id ∉ b.2.1),
     dead := b.2.1 }, a.2.2 || b.2.2)

/-- `PurgeDeleted().visit(elffile)`: iterate `purgeStep` until the `again`
flag is clear; `none` if the fuel runs out first. -/
def purgeLoop : Nat → PElf → Option PElf
  | 0, _ => none
  | fuel + 1, e =>
    match purgeStep e with
    | (e1, true) => purgeLoop fuel e1
    | (e1, false) => some e1

theorem optDead_false {dead : List Nat} {o : Option Nat}
    (h : optDead dead o = false) : ∀ l, o = some l → l ∉ dead := by
  intro l hl
  subst hl
  simp only [optDead, decide_eq_false_iff_not] at h
  exact h

theorem entVisit_false {dead : List Nat} {x : PEnt} {d : List Nat}
    (h : entVisit dead x = (d, false)) :
    d = dead ∧ (x.id ∉ dead → optDead dead x.ref = false) := by
  by_cases hid : x.id ∈ dead
  · rw [entVisit, if_pos hid] at h
    injection h with h1 h2
    exact ⟨h1.symm, fun hn => absurd hid hn⟩
  · rw [entVisit, if_neg hid] at h
    by_cases hr : optDead dead x.ref = true
    · rw [if_pos hr] at h
      injection h with h1 h2
      exact absurd h2 (by simp)
    · rw [if_neg hr] at h
      injection h with h1 h2
      exact ⟨h1.symm, fun _ => Bool.not_eq_true _ ▸ hr⟩

theorem entsVisit_false : ∀ (xs : List PEnt) (dead d : List Nat),
    entsVisit dead xs = (d, false) →
    d = dead ∧ ∀ x ∈ xs, x.id ∉ dead → optDead dead x.ref = false
  | [], dead, d, h => by
    injection h with h1 h2
    exact ⟨h1.symm, fun x hx => absurd hx (List.not_mem_nil x)⟩
  | x :: xs, dead, d, h => by
    rw [entsVisit] at h
    cases hp : entVisit dead x with
    | mk d1 b1 =>
      rw [hp] at h
      cases hq : entsVisit d1 xs with
      | mk d2 b2 =>
        rw [hq] at h
        dsimp only at h
        injection h with h1 h2
        cases b1
        · cases b2
          · obtain ⟨hd1, hx⟩ := entVisit_false hp
            obtain ⟨hd2, hxs⟩ := entsVisit_false xs d1 d2 hq
            refine ⟨by rw [← h1, hd2, hd1], ?_⟩
            intro y hy hyid
            rcases List.mem_cons.1 hy with rfl | hy'
            · exact hx hyid
            · have hys := hxs y hy'
              rw [hd1] at hys
              exact hys hyid
          · simp at h2
        · simp at h2

theorem secVisit_false {dead : List Nat} {s : PSec} {s' : PSec} {d : List Nat}
    (h : secVisit dead s = (s', d, false)) :
    d = dead ∧ s'.id = s.id ∧ (s.id ∉ dead →
      (∀ l, s'.link = some l → l ∉ dead) ∧
      (∀ i, s'.info = some i → i ∉ dead) ∧
      (∀ es, s'.entries = some es → ∀ x ∈ es,
        x.id ∉ dead ∧ ∀ r, x.ref = some r → r ∉ dead)) := by
  by_cases hid : s.id ∈ dead
  · rw [secVisit, if_pos hid] at h
    injection h with h1 h23
    injection h23 with h2 h3
    subst h1
    exact ⟨h2.symm, rfl, fun hn => absurd hid hn⟩
  · rw [secVisit, if_neg hid] at h
    dsimp only at h
    cases hes : s.entries with
    | none =>
      rw [hes] at h
      dsimp only at h
      injection h with h1 h23
      injection h23 with h2 h3
      subst h1
      rw [h3] at h2
      simp only [Bool.false_eq_true, if_false] at h2
      simp only [Bool.or_eq_false_iff] at h3
      obtain ⟨hL, hI⟩ := h3
      refine ⟨h2.symm, rfl, fun _ => ⟨optDead_false hL, optDead_false hI, ?_⟩⟩
      intro es2 hsome
      rw [hes] at hsome
      exact Option.noConfusion hsome
    | some es =>
      rw [hes] at h
      dsimp only at h
      cases hq : entsVisit (if (optDead dead s.link || optDead dead s.info) = true
          then es.foldl (fun d x => x.id :: d) (s.id :: dead) else dead) es with
      | mk d2 b2 =>
        rw [hq] at h
        dsimp only at h
        injection h with h1 h23
        injection h23 with h2 h3
        have hdie : (optDead dead s.link || optDead dead s.info) = false := by
          cases hx : (optDead dead s.link || optDead dead s.info) <;> simp_all
        have hb2 : b2 = false := by cases b2 <;> simp_all
        rw [hdie] at hq
        simp only [Bool.false_eq_true, if_false] at hq
        subst hb2
        obtain ⟨hd2, hxs⟩ := entsVisit_false es dead d2 hq
        simp only [Bool.or_eq_false_iff] at hdie
        obtain ⟨hL, hI⟩ := hdie
        subst h1
        refine ⟨by rw [← h2, hd2], rfl, fun _ => ⟨optDead_false hL, optDead_false hI, ?_⟩⟩
        intro es2 hsome
        injection hsome with hsome2
        subst hsome2
        intro x hx
        obtain ⟨hxes, hxdec⟩ := List.mem_filter.1 hx
        have hxid : x.id ∉ d2 := of_decide_eq_true hxdec
        rw [hd2] at hxid
        exact ⟨hxid, optDead_false (hxs x hxes hxid)⟩

theorem secsVisit_false : ∀ (ss : List PSec) (dead : List Nat) (ss' : List PSec)
    (d : List Nat), secsVisit dead ss = (ss', d, false) →
    d = dead ∧ ∀ t ∈ ss', t.id ∉ dead →
      (∀ l, t.link = some l → l ∉ dead) ∧
      (∀ i, t.info = some i → i ∉ dead) ∧
      (∀ es, t.entries = some es → ∀ x ∈ es,
        x.id ∉ dead ∧ ∀ r, x.ref = some r → r ∉ dead)
  | [], dead, ss', d, h => by
    injection h with h1 h23
    injection h23 with h2 h3
    subst h1
    exact ⟨h2.symm, fun t ht => absurd ht (List.not_mem_nil t)⟩
  | s :: ss, dead, ss', d, h => by
    rw [secsVisit] at h
    cases hp : secVisit dead s with
    | mk s1 rest1 =>
      obtain ⟨d1, b1⟩ := rest1
      cases hq : secsVisit d1 ss with
      | mk ss1 rest2 =>
        obtain ⟨d2, b2⟩ := rest2
        rw [hp, hq] at h
        dsimp only at h
        injection h with h1 h23
        injection h23 with h2 h3
        cases b1
        · cases b2
          · obtain ⟨hd1, hsid, hs⟩ := secVisit_false hp
            obtain ⟨hd2, hss⟩ := secsVisit_false ss d1 ss1 d2 hq
            refine ⟨by rw [← h2, hd2, hd1], ?_⟩
            intro t ht htid
            rw [← h1] at ht
            rcases List.mem_cons.1 ht with rfl | ht'
            · rw [hsid] at htid
              exact hs htid
            · have hts := hss t ht'
              rw [hd1] at hts
              exact hts htid
          · simp at h3
        · simp at h3

theorem segVisit_false {dead : List Nat} {p : PSeg} {p' : PSeg} {d : List Nat}
    (h : segVisit dead p = (p', d, false)) :
    d = dead ∧ p'.id = p.id ∧
    (p.id ∉ dead → p'.secs ≠ [] ∧ ∀ i ∈ p'.secs, i ∉ dead) := by
  by_cases hid : p.id ∈ dead
  · rw [segVisit, if_pos hid] at h
    injection h with h1 h23
    injection h23 with h2 h3
    subst h1
    exact ⟨h2.symm, rfl, fun hn => absurd hid hn⟩
  · rw [segVisit, if_neg hid] at h
    dsimp only at h
    by_cases hnil : p.secs.filter (fun i => decide (i ∉ dead)) = []
    · rw [if_pos hnil] at h
      injection h with h1 h23
      injection h23 with h2 h3
      exact absurd h3 (by simp)
    · rw [if_neg hnil] at h
      injection h with h1 h23
      injection h23 with h2 h3
      subst h1
      refine ⟨h2.symm, rfl, fun _ => ⟨hnil, ?_⟩⟩
      intro i hi
      exact of_decide_eq_true (List.mem_filter.1 hi).2

theorem segsVisit_false : ∀ (ps : List PSeg) (dead : List Nat) (ps' : List PSeg)
    (d : List Nat), segsVisit dead ps = (ps', d, false) →
    d = dead ∧ ∀ t ∈ ps', t.id ∉ dead → t.secs ≠ [] ∧ ∀ i ∈ t.secs, i ∉ dead
  | [], dead, ps', d, h => by
    injection h with h1 h23
    injection h23 with h2 h3
    subst h1
    exact ⟨h2.symm, fun t ht => absurd ht (List.not_mem_nil t)⟩
  | p :: ps, dead, ps', d, h => by
    rw [segsVisit] at h
    cases hp : segVisit dead p with
    | mk p1 rest1 =>
      obtain ⟨d1, b1⟩ := rest1
      cases hq : segsVisit d1 ps with
      | mk ps1 rest2 =>
        obtain ⟨d2, b2⟩ := rest2
        rw [hp, hq] at h
        dsimp only at h
        injection h with h1 h23
        injection h23 with h2 h3
        cases b1
        · cases b2
          · obtain ⟨hd1, hpid, hpp⟩ := segVisit_false hp
            obtain ⟨hd2, hps⟩ := segsVisit_false ps d1 ps1 d2 hq
            refine ⟨by rw [← h2, hd2, hd1], ?_⟩
            intro t ht htid
            rw [← h1] at ht
            rcases List.mem_cons.1 ht with rfl | ht'
            · rw [hpid] at htid
              exact hpp htid
            · have hts := hps t ht'
              rw [hd1] at hts
              exact hts htid
          · simp at h3
        · simp at h3

/-- An iteration whose `again` flag comes back clear leaves a graph in
which every surviving node is live and refers only to live nodes. -/
theorem purgeStep_false {e e' : PElf} (h : purgeStep e = (e', false)) :
    (∀ s ∈ e'.sections, s.id ∉ e'.dead ∧
      (∀ l, s.link = some l → l ∉ e'.dead) ∧
      (∀ i, s.info = some i → i ∉ e'.dead) ∧
      (∀ es, s.entries = some es → ∀ x ∈ es,
        x.id ∉ e'.dead ∧ ∀ r, x.ref = some r → r ∉ e'.dead)) ∧
    (∀ p ∈ e'.segments, p.id ∉ e'.dead ∧ p.secs ≠ [] ∧
      ∀ i ∈ p.secs, i ∉ e'.dead) := by
  rw [purgeStep] at h
  cases ha : secsVisit e.dead e.sections with
  | mk ss1 rest1 =>
    obtain ⟨da, a2⟩ := rest1
    rw [ha] at h
    dsimp only at h
    cases hb : segsVisit da e.segments with
    | mk ps1 rest2 =>
      obtain ⟨db, b2⟩ := rest2
      rw [hb] at h
      dsimp only at h
      injection h with h1 h2
      cases a2
      · cases b2
        · obtain ⟨hda, hsecs⟩ := secsVisit_false e.sections e.dead ss1 da ha
          obtain ⟨hdb, hsegs⟩ := segsVisit_false e.segments da ps1 db hb
          subst h1
          dsimp only
          have hde : db = e.dead := by rw [hdb, hda]
          subst hde
          constructor
          · intro s hs
            obtain ⟨hsm, hsdec⟩ := List.mem_filter.1 hs
            have hsid : s.id ∉ e.dead := of_decide_eq_true hsdec
            exact ⟨hsid, hsecs s hsm hsid⟩
          · intro p hp
            obtain ⟨hpm, hpdec⟩ := List.mem_filter.1 hp
            have hpid : p.id ∉ e.dead := of_decide_eq_true hpdec
            have hpp := hsegs p hpm
            rw [hda] at hpp
            exact ⟨hpid, hpp hpid⟩
        · simp at h2
      · simp at h2

/-- C7: when `PurgeDeleted` terminates (the while-loop exits with `again`
clear), every node remaining in the graph -- sections and segments in the
`Elf`'s lists, entries in entry-section lists -- is non-deleted; no
surviving node's cross-reference (`section.link`, `section.info`,
`symbol.section`, `relocation.symbol`, segment membership) points to a
deleted node; and a segment left with no sections has been removed. -/
theorem purge_fixpoint : ∀ (fuel : Nat) (e e' : PElf),
    purgeLoop fuel e = some e' →
    (∀ s ∈ e'.sections, s.id ∉ e'.dead ∧
      (∀ l, s.link = some l → l ∉ e'.dead) ∧
      (∀ i, s.info = some i → i ∉ e'.dead) ∧
      (∀ es, s.entries = some es → ∀ x ∈ es,
        x.id ∉ e'.dead ∧ ∀ r, x.ref = some r → r ∉ e'.dead)) ∧
    (∀ p ∈ e'.segments, p.id ∉ e'.dead ∧ p.secs ≠ [] ∧
      ∀ i ∈ p.secs, i ∉ e'.dead)
  | 0, e, e', h => by rw [purgeLoop] at h; exact Option.noConfusion h
  | fuel + 1, e, e', h => by
    rw [purgeLoop] at h
    cases hstep : purgeStep e with
    | mk e1 again =>
      rw [hstep] at h
      cases again
      · dsimp only at h
        injection h with h1
        subst h1
        exact purgeStep_false hstep
      · dsimp only at h
        exact purge_fixpoint fuel e1 e' h

/-- A graph with a pre-deleted section 0: the symtab-like section 1 links
to it and holds symbol 3, the rel-like section 2 holds relocation 4
referring to symbol 3, and segment 10 contains section 2. -/
def pElfIn : PElf :=
  ⟨[⟨0, none, none, none⟩, ⟨1, some 0, none, some [⟨3, none⟩]⟩,
    ⟨2, none, none, some [⟨4, some 3⟩]⟩], [⟨10, [2]⟩], [0]⟩

/-- The purge's fixpoint on `pElfIn`: section 1 dies via its deleted link,
the `EntrySection.delete` cascade kills its symbol 3, and relocation 4
referencing that symbol is purged in turn. -/
def pElfOut : PElf := ⟨[⟨2, none, none, some []⟩], [⟨10, [2]⟩], [4, 3, 1, 0]⟩

example : purgeLoop 3 pElfIn = some pElfOut := by decide

/-- Witness: the purge invariants evaluated on the fixpoint of `pElfIn`. -/
theorem purge_fixpoint_witness :
    (∀ s ∈ pElfOut.sections, s.id ∉ pElfOut.dead ∧
      (∀ l, s.link = some l → l ∉ pElfOut.dead) ∧
      (∀ i, s.info = some i → i ∉ pElfOut.dead) ∧
      (∀ es, s.entries = some es → ∀ x ∈ es,
        x.id ∉ pElfOut.dead ∧ ∀ r, x.ref = some r → r ∉ pElfOut.dead)) ∧
    (∀ p ∈ pElfOut.segments, p.id ∉ pElfOut.dead ∧ p.secs ≠ [] ∧
      ∀ i ∈ p.secs, i ∉ pElfOut.dead) :=
  purge_fixpoint 3 pElfIn pElfOut (by decide)


end Morelib
